import Mathlib

/-!
# Verification of the Execution Ingestion Core
  (`engine/execution/ingestion/engine.go`)

Shallow embedding of the execution-node ingestion engine: block intake,
the execution-queue forest, the collection matcher/fetcher and the
executor, together with proofs of the specified invariants.

Conventions of the embedding:
* identifiers (block IDs, collection IDs, result IDs) and state
  commitments are `Nat`;
* Go maps become association lists keyed by identifier;
* the mutable `ExecutableBlock` objects, which in Go are shared by
  pointer between the queue forest and the reverse index, live in one
  central heap (`EngineState.ebs`) keyed by block ID; queues and the
  reverse index hold IDs only (the design notes of the spec recommend
  exactly this identifier-based representation);
* fallible storage lookups return an explicit result
  (`ScLookup`/`CollLookup`, absence of a key meaning NOT-FOUND), so the
  three error policies of the code - expected NOT-FOUND, returned error,
  fatal `log.Fatal` - are all representable.  `Res` is the outcome of
  an engine operation: `ok`, a returned (logged) error, or a fatal
  process termination;
* the background task launched by `executeBlockIfComplete` is modelled
  by recording the block in `EngineState.launched`; the body of the task
  (`executeBlock`) runs later as a separate step of the transition
  relation `Step`;
* `attempts` and `execOrder` are write-only ghost fields recording the
  calls to `executeBlockIfComplete` and the order in which blocks are
  durably marked executed; no engine operation reads them.
-/

abbrev Ident := Nat

/-- Association-list lookup (Go map read). -/
def alookup {α : Type} : List (Ident × α) → Ident → Option α
  | [], _ => none
  | (k, v) :: t, x => if x = k then some v else alookup t x

/-- Association-list insert/overwrite (Go map write). -/
def aset {α : Type} : List (Ident × α) → Ident → α → List (Ident × α)
  | [], k, v => [(k, v)]
  | (k', v') :: t, k, v => if k = k' then (k, v) :: t else (k', v') :: aset t k v

/-- Association-list delete (Go map delete). -/
def aremove {α : Type} : List (Ident × α) → Ident → List (Ident × α)
  | [], _ => []
  | (k', v') :: t, k => if k = k' then aremove t k else (k', v') :: aremove t k

theorem alookup_aset {α : Type} (l : List (Ident × α)) (k x : Ident) (v : α) :
    alookup (aset l k v) x = if x = k then some v else alookup l x := by
  induction l with
  | nil => simp [aset, alookup]
  | cons p t ih =>
    obtain ⟨k', v'⟩ := p
    by_cases hk : k = k'
    · subst hk
      by_cases hx : x = k <;> simp [aset, alookup, hx]
    · by_cases hx : x = k'
      · subst hx
        simp [aset, alookup, hk, Ne.symm hk]
      · simp [aset, alookup, hk, hx, ih]

theorem alookup_aremove {α : Type} (l : List (Ident × α)) (k x : Ident) :
    alookup (aremove l k) x = if x = k then none else alookup l x := by
  induction l with
  | nil => simp [aremove, alookup]
  | cons p t ih =>
    obtain ⟨k', v'⟩ := p
    by_cases hk : k = k'
    · subst hk
      by_cases hx : x = k
      · subst hx
        simp only [aremove, if_pos rfl]
        simpa using ih
      · simp [aremove, alookup, hx, ih]
    · by_cases hx : x = k'
      · subst hx
        simp [aremove, alookup, hk, Ne.symm hk, ih]
      · simp [aremove, alookup, hk, hx, ih]

/-! ## Data model -/

/-- A block: 32-byte identifiers become `Nat`; the payload is the ordered
list of collection-guarantee IDs (a guarantee's ID is its collection ID). -/
structure Block where
  id : Ident
  parentID : Ident
  height : Nat
  guarantees : List Ident
  deriving DecidableEq, Repr

/-- `entity.CompleteCollection`: a guarantee plus the transactions of the
collection once they have arrived (`none` = Go `nil`). -/
structure CompleteCollection where
  guarantee : Ident
  transactions : Option (List Nat)
  deriving DecidableEq, Repr

def CompleteCollection.IsCompleted (c : CompleteCollection) : Bool :=
  c.transactions.isSome

/-- `entity.ExecutableBlock` (the entity package is not under `src/`;
its fields are listed in the spec's data model). -/
structure ExecutableBlock where
  block : Block
  completeCollections : List (Ident × CompleteCollection)
  startState : Option Ident
  executing : Bool
  deriving DecidableEq, Repr

/-- Modelled from the spec: `entity.ExecutableBlock.IsComplete` is not
under `src/`; the spec defines the completeness predicate as
`IsComplete() ⇔ StartState is set ∧ every CompleteCollection has its
Transactions filled`, the collections being the ones guaranteed by the
block's payload. -/
def ExecutableBlock.IsComplete (eb : ExecutableBlock) : Bool :=
  eb.startState.isSome && eb.block.guarantees.all (fun g =>
    match alookup eb.completeCollections g with
    | some cc => cc.IsCompleted
    | none => false)

/-! ## Execution queues

Modelled from the spec: `queue.Queue` (module/mempool/queue) is not under
`src/`.  The spec describes an execution queue as a rooted tree of
executable blocks connected parent-to-child whose root is the head. -/

inductive QTree where
  | node (id : Ident) (children : List QTree)
  deriving Repr

def QTree.rootID : QTree → Ident
  | .node i _ => i

mutual

/-- Does the queue contain a node with this block ID? -/
def QTree.containsB : QTree → Ident → Bool
  | .node i cs, x => (i == x) || QTree.containsAnyB cs x

def QTree.containsAnyB : List QTree → Ident → Bool
  | [], _ => false
  | t :: ts, x => QTree.containsB t x || QTree.containsAnyB ts x

end

mutual

/-- Attach a new leaf with ID `cid` beneath the node with ID `pid`. -/
def QTree.insertUnder : QTree → Ident → Ident → QTree
  | .node i cs, pid, cid =>
    if i = pid then .node i (.node cid [] :: cs)
    else .node i (QTree.insertUnderAll cs pid cid)

def QTree.insertUnderAll : List QTree → Ident → Ident → List QTree
  | [], _, _ => []
  | t :: ts, pid, cid => QTree.insertUnder t pid cid :: QTree.insertUnderAll ts pid cid

end

/-- Modelled from the spec: `queue.Queue.TryAdd`.  Per the spec's
`Enqueue` contract: a block already present anywhere in the queue is
reported as stored-but-not-new without modification; a block whose
parent is a node of the queue is attached beneath it; otherwise the
probe fails.  Returns `(queue, stored, isNew)`. -/
def QTree.tryAdd (q : QTree) (id parentID : Ident) : QTree × Bool × Bool :=
  if q.containsB id then (q, true, false)
  else if q.containsB parentID then (q.insertUnder parentID id, true, true)
  else (q, false, false)

/-- `enqueue` of engine.go: probe each existing queue via `TryAdd`;
if none succeeds, start a new queue rooted at the block.  Returns the
updated forest and the booleans `(added, head)`. -/
def enqueueQ (id parentID : Ident) : List QTree → List QTree × Bool × Bool
  | [] => ([QTree.node id []], true, true)
  | q :: qs =>
    match q.tryAdd id parentID with
    | (q', true, isNew) => (q' :: qs, isNew, false)
    | (_, false, _) =>
      match enqueueQ id parentID qs with
      | (qs', added, head) => (q :: qs', added, head)

/-- `QueuesBackdata.ByID`: queues are keyed by the ID of their head. -/
def findQueue : List QTree → Ident → Option QTree
  | [], _ => none
  | q :: qs, x => if q.rootID = x then some q else findQueue qs x

/-- Is some queue of the forest keyed by (i.e. headed by) this ID? -/
def hasRoot (qs : List QTree) (x : Ident) : Bool :=
  qs.any (fun q => q.rootID == x)

/-- `QueuesBackdata.Remove`. -/
def queuesRemove : List QTree → Ident → List QTree
  | [], _ => []
  | q :: qs, x => if q.rootID = x then qs else q :: queuesRemove qs x

/-! ## Engine state and environment -/

/-- Result of a `StateCommitmentByBlockID` lookup stored for a key
(absence of the key models `storage.ErrNotFound`; `exception` models a
non-not-found storage error). -/
inductive ScLookup where
  | ok (c : Ident)
  | exception
  deriving DecidableEq, Repr

/-- Result of a `collections.ByID` lookup stored for a key. -/
inductive CollLookup where
  | ok (txs : List Nat)
  | exception
  deriving DecidableEq, Repr

/-- Outcome of an engine operation: success, a returned (logged) error,
or a fatal `log.Fatal` that terminates the process. -/
inductive Res (α : Type) where
  | ok (a : α)
  | err
  | fatal
  deriving DecidableEq, Repr

/-- The durable execution state (`state.ExecutionState` plus the
executed-blocks index of the spec's persisted state layout; the storage
package carrying `IsBlockExecuted`/`SaveExecutionResults` is not under
`src/`, so its single-key semantics are modelled from the spec).
`execOrder` is a ghost list recording the order in which blocks were
marked executed. -/
structure ExecState where
  scStore : List (Ident × ScLookup)
  executed : List Ident
  execResults : List (Ident × Ident)
  lastExecuted : Ident × Nat
  execOrder : List Ident
  deriving DecidableEq, Repr

/-- The full in-memory state of the ingestion core: the queue forest and
reverse index of the mempool, the heap of `ExecutableBlock`s (shared by
pointer in Go, by ID here), the collection store, the durable execution
state, the set of dispatched collection requests, the launched
background execution tasks, and the ghost `attempts` log of
`executeBlockIfComplete` calls. -/
structure EngineState where
  queues : List QTree
  ebs : List (Ident × ExecutableBlock)
  blockByCollection : List (Ident × List Ident)
  collStore : List (Ident × CollLookup)
  es : ExecState
  requested : List Ident
  launched : List Ident
  attempts : List Ident
  deriving Repr

/-- The external collaborators (protocol state, block storage, VM,
guarantor resolution, save-failure injection). -/
structure Env where
  blocksByID : Ident → Option Block
  compute : Ident → Ident → Ident → Option (Ident × Ident)
  saveErr : Ident → Bool
  guarantors : Ident → Option (List Ident)
  headers : Ident → Option Nat
  rootID : Ident

/-- Update the executable block stored under `id`, if present. -/
def updateEB (s : EngineState) (id : Ident) (f : ExecutableBlock → ExecutableBlock) :
    EngineState :=
  match alookup s.ebs id with
  | some eb => { s with ebs := aset s.ebs id (f eb) }
  | none => s

/-! ## The executor -/

/-- `executeBlockIfComplete` (engine.go): the `TryExecute` one-shot
latch.  Returns `false` if the block is already `Executing` or not
complete; otherwise flips `Executing`, launches `executeBlock` as a
background task (recorded in `launched`) and returns `true`.  The ghost
`attempts` log records the call. -/
def executeBlockIfComplete (id : Ident) (s : EngineState) : Bool × EngineState :=
  let s := { s with attempts := s.attempts ++ [id] }
  match alookup s.ebs id with
  | none => (false, s)
  | some eb =>
    if eb.executing then (false, s)
    else if eb.IsComplete then
      (true,
        { updateEB s id (fun eb => { eb with executing := true }) with
            launched := s.launched ++ [id] })
    else (false, s)

/-! ## Collection delivery -/

/-- Loop body of `addCollectionToMempool`: fill the delivered
transactions into every waiting block's matching `CompleteCollection`
and attempt `executeBlockIfComplete` on it; a block whose
`CompleteCollections` lacks the entry (or a dangling ID, the analogue of
an invalid pointer) is an internal inconsistency and aborts with an
error. -/
def addCollLoop (collID : Ident) (txs : List Nat) :
    List Ident → EngineState → Res Unit × EngineState
  | [], s => (.ok (), s)
  | bid :: rest, s =>
    match alookup s.ebs bid with
    | none => (.err, s)
    | some eb =>
      match alookup eb.completeCollections collID with
      | none => (.err, s)
      | some cc =>
        if cc.IsCompleted then addCollLoop collID txs rest s
        else
          let s := updateEB s bid (fun eb =>
            let ccs := aset eb.completeCollections collID { cc with transactions := some txs }
            { eb with completeCollections := ccs })
          let (_, s) := executeBlockIfComplete bid s
          addCollLoop collID txs rest s

/-- `addCollectionToMempool` (engine.go): look up the reverse index for
the delivered collection; if absent, nobody needs it - drop.  Otherwise
unblock every waiting block and remove the reverse-index entry. -/
def addCollectionToMempool (collID : Ident) (txs : List Nat) (s : EngineState) :
    Res Unit × EngineState :=
  match alookup s.blockByCollection collID with
  | none => (.ok (), s)
  | some blks =>
    match addCollLoop collID txs blks s with
    | (.ok _, s) =>
      (.ok (), { s with blockByCollection := aremove s.blockByCollection collID })
    | (r, s) => (r, s)

/-- `fetchAndHandleCollection` (engine.go), with the handler both call
sites pass (`addCollectionToMempool` under the mempool lock): guarantees
whose collections are found in local storage are handed to the handler;
a NOT-FOUND dispatches a fetch restricted to the guarantors
(`fetchCollection`; unresolvable guarantors are fatal); any other
storage error is returned. -/
def fetchAndHandleCollection (env : Env) :
    List Ident → EngineState → Res Unit × EngineState
  | [], s => (.ok (), s)
  | g :: gs, s =>
    match alookup s.collStore g with
    | some (.ok txs) =>
      match addCollectionToMempool g txs s with
      | (.ok _, s) => fetchAndHandleCollection env gs s
      | (r, s) => (r, s)
    | some .exception => (.err, s)
    | none =>
      match env.guarantors g with
      | none => (.fatal, s)
      | some _ => fetchAndHandleCollection env gs { s with requested := s.requested ++ [g] }

/-- `addOrFetch` (engine.go) is `fetchAndHandleCollection` with the
mempool handler. -/
def addOrFetch (env : Env) (gs : List Ident) (s : EngineState) : Res Unit × EngineState :=
  fetchAndHandleCollection env gs s

/-- `handleCollection` (engine.go): persist the collection, then
unblock waiting blocks under the mempool lock. -/
def handleCollection (collID : Ident) (txs : List Nat) (s : EngineState) :
    Res Unit × EngineState :=
  let s := { s with collStore := aset s.collStore collID (.ok txs) }
  addCollectionToMempool collID txs s

/-! ## The collection matcher -/

/-- Loop body of `matchAndFindMissingCollections`: for each guarantee,
allocate a fresh `CompleteCollection{Guarantee, Transactions = nil}`
entry on the block; if a reverse-index entry for the collection already
exists, join its waiting set (the collection is already being fetched);
otherwise create the entry and report the guarantee missing. -/
def matchLoop (ebID : Ident) :
    List Ident → EngineState → List Ident × EngineState
  | [], s => ([], s)
  | g :: gs, s =>
    let s := updateEB s ebID (fun eb =>
      { eb with completeCollections := aset eb.completeCollections g ⟨g, none⟩ })
    match alookup s.blockByCollection g with
    | some blks =>
      let blks' := if ebID ∈ blks then blks else blks ++ [ebID]
      let s := { s with blockByCollection := aset s.blockByCollection g blks' }
      matchLoop ebID gs s
    | none =>
      let s := { s with blockByCollection := aset s.blockByCollection g [ebID] }
      let (ms, s) := matchLoop ebID gs s
      (g :: ms, s)

/-- `matchAndFindMissingCollections` (engine.go). -/
def matchAndFindMissingCollections (ebID : Ident) (s : EngineState) :
    List Ident × EngineState :=
  match alookup s.ebs ebID with
  | none => ([], s)
  | some eb => matchLoop ebID eb.block.guarantees s

/-! ## Block intake -/

/-- `enqueueBlockAndCheckExecutable` (engine.go): create the
`ExecutableBlock`, add it to the queue forest; if it was already
enqueued, bail with no modification.  Otherwise populate `StartState`
from the parent's persisted state commitment (NOT-FOUND leaves it
unset, any other storage error is fatal), run the collection matcher,
and, when the block heads a fresh queue, attempt `TryExecute`.
Returns the missing collections. -/
def enqueueBlockAndCheckExecutable (b : Block) (s : EngineState) :
    Res (List Ident) × EngineState :=
  let eb0 : ExecutableBlock := ⟨b, [], none, false⟩
  match enqueueQ b.id b.parentID s.queues with
  | (_, false, _) => (.ok [], s)
  | (queues', true, head) =>
    let s := { s with queues := queues', ebs := aset s.ebs b.id eb0 }
    let rest : EngineState → Res (List Ident) × EngineState := fun s =>
      let (missing, s) := matchAndFindMissingCollections b.id s
      let s := if head then (executeBlockIfComplete b.id s).2 else s
      (.ok missing, s)
    match alookup s.es.scStore b.parentID with
    | some ScLookup.exception => (.fatal, s)
    | some (ScLookup.ok c) => rest (updateEB s b.id (fun eb => { eb with startState := some c }))
    | none => rest s

/-- `handleBlock` (engine.go): consult the executed-blocks index and
return unchanged if the block was already executed; otherwise enqueue
under the mempool lock and hand the missing collections to
`addOrFetch`. -/
def handleBlock (env : Env) (b : Block) (s : EngineState) : Res Unit × EngineState :=
  if b.id ∈ s.es.executed then (.ok (), s)
  else
    match enqueueBlockAndCheckExecutable b s with
    | (.ok missing, s) => addOrFetch env missing s
    | (.err, s) => (.err, s)
    | (.fatal, s) => (.fatal, s)

/-! ## Promotion of children after execution -/

/-- Loop body of `onBlockExecuted` over the dismounted children: add
each child's tree back as its own queue (a duplicate is a reported
inconsistency that aborts the loop), set the child's `StartState` to
the parent's end state, rerun collection matching, and attempt
`TryExecute`.  Accumulates each child's missing collections. -/
def childLoop (finalState : Ident) :
    List QTree → EngineState → Res Unit × List (Ident × List Ident) × EngineState
  | [], s => (.ok (), [], s)
  | c :: cs, s =>
    let qid := c.rootID
    if hasRoot s.queues qid then (.err, [], s)
    else
      let s := { s with queues := s.queues ++ [c] }
      let s := updateEB s qid (fun eb => { eb with startState := some finalState })
      let (missing, s) := matchAndFindMissingCollections qid s
      let (_, s) := executeBlockIfComplete qid s
      let (r, ms, s) := childLoop finalState cs s
      (r, (if missing.isEmpty then ms else (qid, missing) :: ms), s)

/-- The `mempool.Run` critical section of `onBlockExecuted`
(engine.go): find the queue headed by the executed block (its absence
means a second `onBlockExecuted` raced us and is a reported error),
dismount it so that each child becomes the root of its own queue,
promote the children, and finally remove the executed block's queue. -/
def onBlockExecutedRun (executedID : Ident) (finalState : Ident) (s : EngineState) :
    Res Unit × List (Ident × List Ident) × EngineState :=
  match findQueue s.queues executedID with
  | none => (.err, [], s)
  | some (.node _ children) =>
    match childLoop finalState children s with
    | (.ok _, ms, s) => (.ok (), ms, { s with queues := queuesRemove s.queues executedID })
    | (r, ms, s) => (r, ms, s)

/-- Loop over the accumulated missing collections of the promoted
children (`onBlockExecuted` forwards each child's list to
`addOrFetch`, aborting on the first error). -/
def missingLoop (env : Env) :
    List (Ident × List Ident) → EngineState → Res Unit × EngineState
  | [], s => (.ok (), s)
  | (_, missing) :: rest, s =>
    match addOrFetch env missing s with
    | (.ok _, s) => missingLoop env rest s
    | (r, s) => (r, s)

/-- `onBlockExecuted` (engine.go): run the critical section; an error
from it is only logged (the function then proceeds); afterwards fetch
the missing collections recorded for the promoted children. -/
def onBlockExecuted (env : Env) (executedID : Ident) (finalState : Ident)
    (s : EngineState) : Res Unit × EngineState :=
  let (_, ms, s) := onBlockExecutedRun executedID finalState s
  missingLoop env ms s

/-! ## The executor's background task -/

/-- The writes performed by a successful `SaveExecutionResults`
(modelled from the spec's persisted-state layout: the storage package
is not under `src/`): the post-execution state commitment, the
execution-result index, the executed-blocks index, and the
last-executed marker (raised only if higher).  The ghost `execOrder`
records the order of first-time executions. -/
def writeResults (id resultID endState : Ident) (height : Nat) (s : EngineState) :
    EngineState :=
  let es := s.es
  let es :=
    { es with
        scStore := aset es.scStore id (.ok endState)
        execResults := aset es.execResults id resultID
        executed := if id ∈ es.executed then es.executed else es.executed ++ [id]
        execOrder := if id ∈ es.executed then es.execOrder else es.execOrder ++ [id]
        lastExecuted :=
          if height > es.lastExecuted.2 then (id, height) else es.lastExecuted }
  { s with es := es }

/-- `saveExecutionResults` (engine.go) together with the storage
contract of `SaveExecutionResults` (modelled from the spec: a distinct
data-mismatch error when called twice with differing payloads for the
same block, which `executeBlock` treats as fatal; `saveErr` injects any
other storage failure, which is returned). -/
def saveExecutionResults (env : Env) (id resultID endState : Ident) (height : Nat)
    (s : EngineState) : Res Unit × EngineState :=
  if env.saveErr id then (.err, s)
  else
    match alookup s.es.execResults id with
    | some r =>
      if r = resultID then (.ok (), writeResults id resultID endState height s)
      else (.fatal, s)
    | none => (.ok (), writeResults id resultID endState height s)

/-- `executeBlock` (engine.go), the background task: look up the
parent's execution-result ID (an error returns, with the block left
`Executing`), open a snapshot at `StartState`, invoke the VM
(`ComputeBlock`; an error returns), persist the results (data-mismatch
is fatal, other save errors return), then promote the children via
`onBlockExecuted`.  A `none` `StartState` would be a nil dereference in
the source; it is modelled as a returned error and is unreachable for
launched blocks. -/
def executeBlock (env : Env) (id : Ident) (s : EngineState) : Res Unit × EngineState :=
  match alookup s.ebs id with
  | none => (.err, s)
  | some eb =>
    match alookup s.es.execResults eb.block.parentID with
    | none => (.err, s)
    | some parentResultID =>
      match eb.startState with
      | none => (.err, s)
      | some st =>
        match env.compute parentResultID id st with
        | none => (.err, s)
        | some (endState, resultID) =>
          match saveExecutionResults env id resultID endState eb.block.height s with
          | (.ok _, s) => onBlockExecuted env id endState s
          | (.err, s) => (.err, s)
          | (.fatal, s) => (.fatal, s)

/-- A launched background task completing: the task leaves the
`launched` pool and its body `executeBlock` runs. -/
def finishExecute (env : Env) (id : Ident) (s : EngineState) : Res Unit × EngineState :=
  executeBlock env id { s with launched := s.launched.erase id }

/-! ## Startup recovery -/

/-- `reloadBlock` (engine.go): fetch the block from storage, enqueue it
through the normal path, and fetch its missing collections. -/
def reloadBlock (env : Env) (blockID : Ident) (s : EngineState) :
    Res Unit × EngineState :=
  match env.blocksByID blockID with
  | none => (.err, s)
  | some b =>
    match enqueueBlockAndCheckExecutable b s with
    | (.ok missing, s) => fetchAndHandleCollection env missing s
    | (.err, s) => (.err, s)
    | (.fatal, s) => (.fatal, s)

/-- The last-executed fragment of `reloadUnexecutedBlocks` (engine.go):
read the last-executed marker, resolve its header, and - unless the
marker points at the root block or the block's result is actually
present in storage - re-enqueue it for execution.  The returned `Bool`
is the ghost observation that `reloadBlock` was invoked. -/
def reloadLastExecutedStep (env : Env) (s : EngineState) :
    Res Unit × Bool × EngineState :=
  let lastID := s.es.lastExecuted.1
  match env.headers lastID with
  | none => (.err, false, s)
  | some _ =>
    if env.rootID = lastID then (.ok (), false, s)
    else if lastID ∈ s.es.executed then (.ok (), false, s)
    else
      match reloadBlock env lastID s with
      | (r, s) => (r, true, s)

/-! ## The concurrent transition system

Coarse interleaving semantics: each step is one of the entry points of
the engine (a `BlockProcessable` notification running `handleBlock`, an
`OnCollection` delivery running `handleCollection`, the completion of a
launched background `executeBlock` task, or the startup-recovery
fragment). -/

inductive Step (env : Env) : EngineState → EngineState → Prop where
  | handle (b : Block) (s s' : EngineState) :
      env.blocksByID b.id = some b →
      s' = (handleBlock env b s).2 → Step env s s'
  | collection (collID : Ident) (txs : List Nat) (s s' : EngineState) :
      s' = (handleCollection collID txs s).2 → Step env s s'
  | finish (id : Ident) (s s' : EngineState) :
      id ∈ s.launched →
      s' = (finishExecute env id s).2 → Step env s s'
  | reload (s s' : EngineState) :
      s' = (reloadLastExecutedStep env s).2.2 → Step env s s'

inductive Reach (env : Env) : EngineState → EngineState → Prop where
  | refl (s : EngineState) : Reach env s s
  | tail (s t u : EngineState) : Reach env s t → Step env t u → Reach env s u

/-- The state right after bootstrapping: empty mempool, the root block
executed with commitment `c0` and result `r0`, arbitrary pre-existing
collection storage. -/
def initState (env : Env) (r0 c0 : Ident) (h0 : Nat) (cs : List (Ident × CollLookup)) :
    EngineState :=
  { queues := []
    ebs := []
    blockByCollection := []
    collStore := cs
    es :=
      { scStore := [(env.rootID, .ok c0)]
        executed := [env.rootID]
        execResults := [(env.rootID, r0)]
        lastExecuted := (env.rootID, h0)
        execOrder := [env.rootID] }
    requested := []
    launched := []
    attempts := [] }

/-- Well-formedness of block storage: a block retrieved by ID carries
that ID (IDs are content hashes). -/
def EnvOK (env : Env) : Prop :=
  ∀ id b, env.blocksByID id = some b → b.id = id

/-! ## Preservation of the durable execution state

Every engine operation except the save inside `executeBlock` leaves the
durable execution state `EngineState.es` untouched. -/

@[simp] theorem updateEB_es (s : EngineState) (id : Ident)
    (f : ExecutableBlock → ExecutableBlock) : (updateEB s id f).es = s.es := by
  unfold updateEB
  cases alookup s.ebs id <;> rfl

@[simp] theorem executeBlockIfComplete_es (id : Ident) (s : EngineState) :
    (executeBlockIfComplete id s).2.es = s.es := by
  unfold executeBlockIfComplete
  dsimp only
  split
  · rfl
  · split
    · rfl
    · split
      · simp
      · rfl

@[simp] theorem addCollLoop_es (collID : Ident) (txs : List Nat) :
    ∀ (l : List Ident) (s : EngineState), (addCollLoop collID txs l s).2.es = s.es := by
  intro l
  induction l with
  | nil => intro s; rfl
  | cons b rest ih =>
    intro s
    unfold addCollLoop
    split
    · rfl
    · split
      · rfl
      · split
        · exact ih s
        · simp [ih]

@[simp] theorem addCollectionToMempool_es (collID : Ident) (txs : List Nat)
    (s : EngineState) : (addCollectionToMempool collID txs s).2.es = s.es := by
  cases h : alookup s.blockByCollection collID with
  | none => simp [addCollectionToMempool, h]
  | some blks =>
    have h1 := addCollLoop_es collID txs blks s
    cases h2 : addCollLoop collID txs blks s with
    | mk r s2 =>
      rw [h2] at h1
      simp only at h1
      cases r <;> simp [addCollectionToMempool, h, h2, h1]

@[simp] theorem fetchAndHandleCollection_es (env : Env) :
    ∀ (l : List Ident) (s : EngineState), (fetchAndHandleCollection env l s).2.es = s.es := by
  intro l
  induction l with
  | nil => intro s; rfl
  | cons g gs ih =>
    intro s
    cases h : alookup s.collStore g with
    | none =>
      cases hg : env.guarantors g with
      | none => simp [fetchAndHandleCollection, h, hg]
      | some _ => simp [fetchAndHandleCollection, h, hg, ih]
    | some cl =>
      cases cl with
      | exception => simp [fetchAndHandleCollection, h]
      | ok txs =>
        have h1 := addCollectionToMempool_es g txs s
        cases h2 : addCollectionToMempool g txs s with
        | mk r s2 =>
          rw [h2] at h1
          simp only at h1
          cases r <;> simp [fetchAndHandleCollection, h, h2, h1, ih]

@[simp] theorem addOrFetch_es (env : Env) (l : List Ident) (s : EngineState) :
    (addOrFetch env l s).2.es = s.es :=
  fetchAndHandleCollection_es env l s

@[simp] theorem handleCollection_es (collID : Ident) (txs : List Nat) (s : EngineState) :
    (handleCollection collID txs s).2.es = s.es := by
  unfold handleCollection
  simp

@[simp] theorem matchLoop_es (ebID : Ident) :
    ∀ (l : List Ident) (s : EngineState), (matchLoop ebID l s).2.es = s.es := by
  intro l
  induction l with
  | nil => intro s; rfl
  | cons g gs ih =>
    intro s
    unfold matchLoop
    dsimp only
    split
    · simp [ih]
    · simp [ih]

@[simp] theorem matchAndFindMissingCollections_es (ebID : Ident) (s : EngineState) :
    (matchAndFindMissingCollections ebID s).2.es = s.es := by
  unfold matchAndFindMissingCollections
  split
  · rfl
  · simp

@[simp] theorem enqueueBlockAndCheckExecutable_es (b : Block) (s : EngineState) :
    (enqueueBlockAndCheckExecutable b s).2.es = s.es := by
  unfold enqueueBlockAndCheckExecutable
  dsimp only
  split
  · rfl
  · split
    · rfl
    · split <;> simp
    · split <;> simp

@[simp] theorem handleBlock_es (env : Env) (b : Block) (s : EngineState) :
    (handleBlock env b s).2.es = s.es := by
  have h1 := enqueueBlockAndCheckExecutable_es b s
  cases h2 : enqueueBlockAndCheckExecutable b s with
  | mk r s2 =>
    rw [h2] at h1
    simp only at h1
    by_cases hb : b.id ∈ s.es.executed <;>
      cases r <;> simp [handleBlock, h2, h1, hb]

@[simp] theorem childLoop_es (finalState : Ident) :
    ∀ (cs : List QTree) (s : EngineState), (childLoop finalState cs s).2.2.es = s.es := by
  intro cs
  induction cs with
  | nil => intro s; rfl
  | cons c rest ih =>
    intro s
    unfold childLoop
    dsimp only
    split
    · rfl
    · simp [ih]

@[simp] theorem onBlockExecutedRun_es (executedID finalState : Ident) (s : EngineState) :
    (onBlockExecutedRun executedID finalState s).2.2.es = s.es := by
  cases h : findQueue s.queues executedID with
  | none => simp [onBlockExecutedRun, h]
  | some q =>
    cases q with
    | node i children =>
      have h1 := childLoop_es finalState children s
      cases h2 : childLoop finalState children s with
      | mk r rest =>
        cases rest with
        | mk ms s2 =>
          rw [h2] at h1
          simp only at h1
          cases r <;> simp [onBlockExecutedRun, h, h2, h1]

@[simp] theorem missingLoop_es (env : Env) :
    ∀ (l : List (Ident × List Ident)) (s : EngineState), (missingLoop env l s).2.es = s.es := by
  intro l
  induction l with
  | nil => intro s; rfl
  | cons p rest ih =>
    intro s
    obtain ⟨qid, missing⟩ := p
    have h1 := addOrFetch_es env missing s
    cases h2 : addOrFetch env missing s with
    | mk r s2 =>
      rw [h2] at h1
      simp only at h1
      cases r <;> simp [missingLoop, h2, h1, ih]

@[simp] theorem onBlockExecuted_es (env : Env) (executedID finalState : Ident)
    (s : EngineState) : (onBlockExecuted env executedID finalState s).2.es = s.es := by
  have h1 := onBlockExecutedRun_es executedID finalState s
  cases h2 : onBlockExecutedRun executedID finalState s with
  | mk r rest =>
    cases rest with
    | mk ms s2 =>
      rw [h2] at h1
      simp only at h1
      simp [onBlockExecuted, h2, h1]

@[simp] theorem reloadBlock_es (env : Env) (blockID : Ident) (s : EngineState) :
    (reloadBlock env blockID s).2.es = s.es := by
  cases h : env.blocksByID blockID with
  | none => simp [reloadBlock, h]
  | some b =>
    have h1 := enqueueBlockAndCheckExecutable_es b s
    cases h2 : enqueueBlockAndCheckExecutable b s with
    | mk r s2 =>
      rw [h2] at h1
      simp only at h1
      cases r <;> simp [reloadBlock, h, h2, h1]

@[simp] theorem reloadLastExecutedStep_es (env : Env) (s : EngineState) :
    (reloadLastExecutedStep env s).2.2.es = s.es := by
  cases h : env.headers s.es.lastExecuted.1 with
  | none => simp [reloadLastExecutedStep, h]
  | some _ =>
    by_cases hr : env.rootID = s.es.lastExecuted.1
    · simp [reloadLastExecutedStep, h, hr]
    · by_cases he : s.es.lastExecuted.1 ∈ s.es.executed
      · simp [reloadLastExecutedStep, h, hr, he]
      · have h1 := reloadBlock_es env s.es.lastExecuted.1 s
        cases h2 : reloadBlock env s.es.lastExecuted.1 s with
        | mk r s2 =>
          rw [h2] at h1
          simp only at h1
          simp [reloadLastExecutedStep, h, hr, he, h2, h1]

/-! ## Preservation of the immutable blocks of the heap

The `Block` wrapped by an `ExecutableBlock` is immutable once observed;
every engine operation either preserves the heap's blocks or (at
enqueue) adds the handled block under its own ID. -/

/-- The immutable block stored in the heap under an ID. -/
def ebBlock (s : EngineState) (x : Ident) : Option Block :=
  (alookup s.ebs x).map ExecutableBlock.block

theorem ebBlock_updateEB (s : EngineState) (id : Ident)
    (f : ExecutableBlock → ExecutableBlock) (hf : ∀ eb, (f eb).block = eb.block)
    (x : Ident) : ebBlock (updateEB s id f) x = ebBlock s x := by
  unfold updateEB
  cases h : alookup s.ebs id with
  | none => rfl
  | some eb =>
    unfold ebBlock
    simp only [alookup_aset]
    by_cases hx : x = id
    · subst hx
      simp [h, hf]
    · simp [hx]

theorem executeBlockIfComplete_ebBlock (id : Ident) (s : EngineState) (x : Ident) :
    ebBlock (executeBlockIfComplete id s).2 x = ebBlock s x := by
  unfold executeBlockIfComplete
  dsimp only
  split
  · rfl
  · split
    · rfl
    · split
      · show ebBlock { updateEB _ id _ with launched := _ } x = _
        have h1 := ebBlock_updateEB { s with attempts := s.attempts ++ [id] } id
          (fun eb => { eb with executing := true }) (fun _ => rfl) x
        unfold ebBlock at h1 ⊢
        simpa using h1
      · rfl

theorem addCollLoop_ebBlock (collID : Ident) (txs : List Nat) :
    ∀ (l : List Ident) (s : EngineState) (x : Ident),
      ebBlock (addCollLoop collID txs l s).2 x = ebBlock s x := by
  intro l
  induction l with
  | nil => intro s x; rfl
  | cons bid rest ih =>
    intro s x
    unfold addCollLoop
    split
    · rfl
    · split
      · rfl
      · split
        · exact ih s x
        · dsimp only
          rw [ih, executeBlockIfComplete_ebBlock]
          refine ebBlock_updateEB _ _ _ ?_ x
          intro eb
          rfl

theorem addCollectionToMempool_ebBlock (collID : Ident) (txs : List Nat)
    (s : EngineState) (x : Ident) :
    ebBlock (addCollectionToMempool collID txs s).2 x = ebBlock s x := by
  cases h : alookup s.blockByCollection collID with
  | none => simp [addCollectionToMempool, h]
  | some blks =>
    have h1 := addCollLoop_ebBlock collID txs blks s x
    cases h2 : addCollLoop collID txs blks s with
    | mk r s2 =>
      rw [h2] at h1
      simp only at h1
      cases r <;> simp only [addCollectionToMempool, h, h2] <;> exact h1

theorem fetchAndHandleCollection_ebBlock (env : Env) :
    ∀ (l : List Ident) (s : EngineState) (x : Ident),
      ebBlock (fetchAndHandleCollection env l s).2 x = ebBlock s x := by
  intro l
  induction l with
  | nil => intro s x; rfl
  | cons g gs ih =>
    intro s x
    cases h : alookup s.collStore g with
    | none =>
      cases hg : env.guarantors g with
      | none => simp [fetchAndHandleCollection, h, hg]
      | some _ =>
        simp only [fetchAndHandleCollection, h, hg]
        rw [ih]
        rfl
    | some cl =>
      cases cl with
      | exception => simp [fetchAndHandleCollection, h]
      | ok txs =>
        have h1 := addCollectionToMempool_ebBlock g txs s x
        cases h2 : addCollectionToMempool g txs s with
        | mk r s2 =>
          rw [h2] at h1
          simp only at h1
          cases r <;> simp [fetchAndHandleCollection, h, h2, h1, ih]

theorem handleCollection_ebBlock (collID : Ident) (txs : List Nat) (s : EngineState)
    (x : Ident) : ebBlock (handleCollection collID txs s).2 x = ebBlock s x := by
  unfold handleCollection
  dsimp only
  rw [addCollectionToMempool_ebBlock]
  rfl

theorem matchLoop_ebBlock (ebID : Ident) :
    ∀ (l : List Ident) (s : EngineState) (x : Ident),
      ebBlock (matchLoop ebID l s).2 x = ebBlock s x := by
  intro l
  induction l with
  | nil => intro s x; rfl
  | cons g gs ih =>
    intro s x
    unfold matchLoop
    dsimp only
    split
    · rw [ih]
      show ebBlock (updateEB s ebID _) x = _
      refine ebBlock_updateEB _ _ _ ?_ x
      intro eb
      rfl
    · dsimp only
      rw [ih]
      show ebBlock (updateEB s ebID _) x = _
      refine ebBlock_updateEB _ _ _ ?_ x
      intro eb
      rfl

theorem matchAndFindMissingCollections_ebBlock (ebID : Ident) (s : EngineState)
    (x : Ident) :
    ebBlock (matchAndFindMissingCollections ebID s).2 x = ebBlock s x := by
  unfold matchAndFindMissingCollections
  split
  · rfl
  · rw [matchLoop_ebBlock]

theorem childLoop_ebBlock (finalState : Ident) :
    ∀ (cs : List QTree) (s : EngineState) (x : Ident),
      ebBlock (childLoop finalState cs s).2.2 x = ebBlock s x := by
  intro cs
  induction cs with
  | nil => intro s x; rfl
  | cons c rest ih =>
    intro s x
    unfold childLoop
    dsimp only
    split
    · rfl
    · dsimp only
      rw [ih, executeBlockIfComplete_ebBlock, matchAndFindMissingCollections_ebBlock]
      show ebBlock (updateEB _ _ _) x = _
      refine Eq.trans (ebBlock_updateEB _ _ _ ?_ x) rfl
      intro eb
      rfl

theorem onBlockExecutedRun_ebBlock (executedID finalState : Ident) (s : EngineState)
    (x : Ident) :
    ebBlock (onBlockExecutedRun executedID finalState s).2.2 x = ebBlock s x := by
  cases h : findQueue s.queues executedID with
  | none => simp [onBlockExecutedRun, h]
  | some q =>
    cases q with
    | node i children =>
      have h1 := childLoop_ebBlock finalState children s x
      cases h2 : childLoop finalState children s with
      | mk r rest =>
        cases rest with
        | mk ms s2 =>
          rw [h2] at h1
          simp only at h1
          cases r <;> simp only [onBlockExecutedRun, h, h2] <;> exact h1

theorem missingLoop_ebBlock (env : Env) :
    ∀ (l : List (Ident × List Ident)) (s : EngineState) (x : Ident),
      ebBlock (missingLoop env l s).2 x = ebBlock s x := by
  intro l
  induction l with
  | nil => intro s x; rfl
  | cons p rest ih =>
    intro s x
    obtain ⟨qid, missing⟩ := p
    have h1 := fetchAndHandleCollection_ebBlock env missing s x
    cases h2 : addOrFetch env missing s with
    | mk r s2 =>
      rw [show addOrFetch env missing s = fetchAndHandleCollection env missing s from rfl]
        at h2
      rw [h2] at h1
      simp only at h1
      cases r <;>
        simp only [missingLoop, addOrFetch, h2] <;>
        first
          | exact h1
          | rw [ih]; exact h1

theorem onBlockExecuted_ebBlock (env : Env) (executedID finalState : Ident)
    (s : EngineState) (x : Ident) :
    ebBlock (onBlockExecuted env executedID finalState s).2 x = ebBlock s x := by
  have h1 := onBlockExecutedRun_ebBlock executedID finalState s x
  cases h2 : onBlockExecutedRun executedID finalState s with
  | mk r rest =>
    cases rest with
    | mk ms s2 =>
      rw [h2] at h1
      simp only at h1
      simp only [onBlockExecuted, h2]
      rw [missingLoop_ebBlock]
      exact h1

theorem writeResults_ebBlock (id resultID endState : Ident) (height : Nat)
    (s : EngineState) (x : Ident) :
    ebBlock (writeResults id resultID endState height s) x = ebBlock s x := rfl

theorem saveExecutionResults_ebBlock (env : Env) (id resultID endState : Ident)
    (height : Nat) (s : EngineState) (x : Ident) :
    ebBlock (saveExecutionResults env id resultID endState height s).2 x = ebBlock s x := by
  unfold saveExecutionResults
  split
  · rfl
  · split
    · split <;> rfl
    · rfl

theorem executeBlock_ebBlock (env : Env) (id : Ident) (s : EngineState) (x : Ident) :
    ebBlock (executeBlock env id s).2 x = ebBlock s x := by
  cases heb : alookup s.ebs id with
  | none => simp [executeBlock, heb]
  | some eb =>
    cases hpr : alookup s.es.execResults eb.block.parentID with
    | none => simp [executeBlock, heb, hpr]
    | some prid =>
      cases hss : eb.startState with
      | none => simp [executeBlock, heb, hpr, hss]
      | some st =>
        cases hcp : env.compute prid id st with
        | none => simp [executeBlock, heb, hpr, hss, hcp]
        | some p =>
          obtain ⟨endState, resultID⟩ := p
          have h1 := saveExecutionResults_ebBlock env id resultID endState eb.block.height s x
          cases h2 : saveExecutionResults env id resultID endState eb.block.height s with
          | mk r s2 =>
            rw [h2] at h1
            simp only at h1
            cases r <;> simp only [executeBlock, heb, hpr, hss, hcp, h2] <;>
              first
                | exact h1
                | rw [onBlockExecuted_ebBlock]; exact h1

theorem finishExecute_ebBlock (env : Env) (id : Ident) (s : EngineState) (x : Ident) :
    ebBlock (finishExecute env id s).2 x = ebBlock s x := by
  unfold finishExecute
  rw [executeBlock_ebBlock]
  rfl

theorem enqueueBlockAndCheckExecutable_ebBlock (b : Block) (s : EngineState) (x : Ident) :
    ebBlock (enqueueBlockAndCheckExecutable b s).2 x = ebBlock s x ∨
      (x = b.id ∧ ebBlock (enqueueBlockAndCheckExecutable b s).2 x = some b) := by
  cases henq : enqueueQ b.id b.parentID s.queues with
  | mk queues' p =>
    cases p with
    | mk added head =>
      cases added with
      | false => left; simp [enqueueBlockAndCheckExecutable, henq]
      | true =>
        have hbase : ∀ (qs : List QTree) (y : Ident),
            ebBlock { s with queues := qs, ebs := aset s.ebs b.id ⟨b, [], none, false⟩ } y
              = (if y = b.id then some b else ebBlock s y) := by
          intro qs y
          unfold ebBlock
          dsimp only
          rw [alookup_aset]
          by_cases hy : y = b.id <;> simp [hy]
        have hrest : ∀ (t t' : EngineState), (∀ y, ebBlock t y = ebBlock t' y) →
            ∀ (missing : List Ident) (u : EngineState),
              matchAndFindMissingCollections b.id t = (missing, u) →
              ∀ y, ebBlock (if head then (executeBlockIfComplete b.id u).2 else u) y
                = ebBlock t' y := by
          intro t t' ht missing u hu y
          have h1 := matchAndFindMissingCollections_ebBlock b.id t y
          rw [hu] at h1
          simp only at h1
          cases head with
          | false => rw [if_neg Bool.false_ne_true, h1]; exact ht y
          | true => rw [if_pos rfl, executeBlockIfComplete_ebBlock, h1]; exact ht y
        cases hsc : alookup s.es.scStore b.parentID with
        | none =>
          cases hm : matchAndFindMissingCollections b.id
              { s with queues := queues', ebs := aset s.ebs b.id ⟨b, [], none, false⟩ } with
          | mk missing u =>
            have h2 := hrest _ _ (fun y => rfl) missing u hm
            simp only [enqueueBlockAndCheckExecutable, henq, hsc, hm]
            rw [h2 x, hbase]
            by_cases hx : x = b.id
            · right; exact ⟨hx, by simp [hx]⟩
            · left; simp [hx]
        | some sc =>
          cases sc with
          | exception =>
            simp only [enqueueBlockAndCheckExecutable, henq, hsc]
            rw [hbase]
            by_cases hx : x = b.id
            · right; exact ⟨hx, by simp [hx]⟩
            · left; simp [hx]
          | ok c =>
            have hupd : ∀ y, ebBlock (updateEB
                { s with queues := queues', ebs := aset s.ebs b.id ⟨b, [], none, false⟩ }
                b.id (fun eb => { eb with startState := some c })) y
                = ebBlock { s with queues := queues', ebs := aset s.ebs b.id ⟨b, [], none, false⟩ } y := by
              intro y
              refine ebBlock_updateEB _ _ _ ?_ y
              intro eb
              rfl
            cases hm : matchAndFindMissingCollections b.id (updateEB
                { s with queues := queues', ebs := aset s.ebs b.id ⟨b, [], none, false⟩ }
                b.id (fun eb => { eb with startState := some c })) with
            | mk missing u =>
              have h2 := hrest _ _ hupd missing u hm
              simp only [enqueueBlockAndCheckExecutable, henq, hsc, hm]
              rw [h2 x, hbase]
              by_cases hx : x = b.id
              · right; exact ⟨hx, by simp [hx]⟩
              · left; simp [hx]

theorem handleBlock_ebBlock (env : Env) (b : Block) (s : EngineState) (x : Ident) :
    ebBlock (handleBlock env b s).2 x = ebBlock s x ∨
      (x = b.id ∧ ebBlock (handleBlock env b s).2 x = some b) := by
  by_cases hex : b.id ∈ s.es.executed
  · left; simp [handleBlock, hex]
  · have hd := enqueueBlockAndCheckExecutable_ebBlock b s x
    cases h2 : enqueueBlockAndCheckExecutable b s with
    | mk r s2 =>
      rw [h2] at hd
      simp only at hd
      cases r with
      | ok missing =>
        have h3 := fetchAndHandleCollection_ebBlock env missing s2 x
        simp only [handleBlock, if_neg hex, h2, addOrFetch]
        rw [h3]
        exact hd
      | err => simpa [handleBlock, if_neg hex, h2] using hd
      | fatal => simpa [handleBlock, if_neg hex, h2] using hd

theorem reloadBlock_ebBlock (env : Env) (blockID : Ident) (s : EngineState) (x : Ident) :
    ebBlock (reloadBlock env blockID s).2 x = ebBlock s x ∨
      ∃ b, env.blocksByID blockID = some b ∧ x = b.id ∧
        ebBlock (reloadBlock env blockID s).2 x = some b := by
  cases hb : env.blocksByID blockID with
  | none => left; simp [reloadBlock, hb]
  | some b =>
    have hd := enqueueBlockAndCheckExecutable_ebBlock b s x
    cases h2 : enqueueBlockAndCheckExecutable b s with
    | mk r s2 =>
      rw [h2] at hd
      simp only at hd
      cases r with
      | ok missing =>
        have h3 := fetchAndHandleCollection_ebBlock env missing s2 x
        simp only [reloadBlock, hb, h2]
        rw [h3]
        rcases hd with hd | ⟨hx, hd⟩
        · left; exact hd
        · right; exact ⟨b, rfl, hx, hd⟩
      | err =>
        simp only [reloadBlock, hb, h2]
        rcases hd with hd | ⟨hx, hd⟩
        · left; exact hd
        · right; exact ⟨b, rfl, hx, hd⟩
      | fatal =>
        simp only [reloadBlock, hb, h2]
        rcases hd with hd | ⟨hx, hd⟩
        · left; exact hd
        · right; exact ⟨b, rfl, hx, hd⟩

theorem reloadLastExecutedStep_ebBlock (env : Env) (s : EngineState) (x : Ident) :
    ebBlock (reloadLastExecutedStep env s).2.2 x = ebBlock s x ∨
      ∃ b, env.blocksByID s.es.lastExecuted.1 = some b ∧ x = b.id ∧
        ebBlock (reloadLastExecutedStep env s).2.2 x = some b := by
  cases hh : env.headers s.es.lastExecuted.1 with
  | none => left; simp [reloadLastExecutedStep, hh]
  | some _ =>
    by_cases hr : env.rootID = s.es.lastExecuted.1
    · left; simp [reloadLastExecutedStep, hh, hr]
    · by_cases he : s.es.lastExecuted.1 ∈ s.es.executed
      · left; simp [reloadLastExecutedStep, hh, hr, he]
      · have hd := reloadBlock_ebBlock env s.es.lastExecuted.1 s x
        cases h2 : reloadBlock env s.es.lastExecuted.1 s with
        | mk r s2 =>
          rw [h2] at hd
          simp only at hd
          simp only [reloadLastExecutedStep, hh, hr, he, h2, if_neg hr, if_neg he]
          exact hd

/-! ## The heap invariant -/

/-- Every executable block of the heap wraps the block of storage with
its own ID. -/
def heapOK (env : Env) (s : EngineState) : Prop :=
  ∀ x b, ebBlock s x = some b → b.id = x ∧ env.blocksByID x = some b

theorem heapOK_of_ebBlock_eq (env : Env) {s s' : EngineState}
    (h : ∀ y, ebBlock s' y = ebBlock s y) (hOK : heapOK env s) : heapOK env s' :=
  fun x b hx => hOK x b (by rw [← h x]; exact hx)

theorem heapOK_step (env : Env) (hEnv : EnvOK env) {s s' : EngineState}
    (hstep : Step env s s') (hOK : heapOK env s) : heapOK env s' := by
  cases hstep with
  | handle b _ _ hb hs' =>
    subst hs'
    intro x bb hx
    rcases handleBlock_ebBlock env b s x with hd | ⟨hxb, hd⟩
    · exact hOK x bb (by rw [← hd]; exact hx)
    · subst hxb
      rw [hd] at hx
      cases hx
      exact ⟨hEnv _ _ hb, hb⟩
  | collection collID txs _ _ hs' =>
    subst hs'
    exact heapOK_of_ebBlock_eq env (handleCollection_ebBlock collID txs s) hOK
  | finish id _ _ _ hs' =>
    subst hs'
    exact heapOK_of_ebBlock_eq env (finishExecute_ebBlock env id s) hOK
  | reload _ _ hs' =>
    subst hs'
    intro x bb hx
    rcases reloadLastExecutedStep_ebBlock env s x with hd | ⟨b, hb, hxb, hd⟩
    · exact hOK x bb (by rw [← hd]; exact hx)
    · subst hxb
      rw [hd] at hx
      cases hx
      exact ⟨rfl, by rw [← hEnv _ _ hb] at hb; exact hb⟩

/-! ## The parent-before-child invariant -/

theorem alookup_mem {α : Type} :
    ∀ (l : List (Ident × α)) (k : Ident) (v : α), alookup l k = some v → (k, v) ∈ l := by
  intro l
  induction l with
  | nil => intro k v h; cases h
  | cons p t ih =>
    intro k v h
    obtain ⟨k', v'⟩ := p
    by_cases hk : k = k'
    · subst hk
      simp [alookup] at h
      subst h
      exact List.mem_cons_self _ _
    · simp [alookup, hk] at h
      exact List.mem_cons_of_mem _ (ih k v h)

theorem aset_mem {α : Type} :
    ∀ (l : List (Ident × α)) (k : Ident) (v : α) (p : Ident × α),
      p ∈ aset l k v → p.1 = k ∨ p ∈ l := by
  intro l
  induction l with
  | nil =>
    intro k v p h
    simp [aset] at h
    subst h
    exact Or.inl rfl
  | cons q t ih =>
    intro k v p h
    obtain ⟨k', v'⟩ := q
    by_cases hk : k = k'
    · subst hk
      simp only [aset, if_pos rfl] at h
      rcases List.mem_cons.mp h with h | h
      · subst h; exact Or.inl rfl
      · exact Or.inr (List.mem_cons_of_mem _ h)
    · simp only [aset, if_neg hk] at h
      rcases List.mem_cons.mp h with h | h
      · subst h; exact Or.inr (List.mem_cons_self _ _)
      · rcases ih k v p h with h | h
        · exact Or.inl h
        · exact Or.inr (List.mem_cons_of_mem _ h)

/-- Each entry of the ghost execution order is either the root block or
a block of storage whose parent occurs strictly earlier in the order. -/
def orderOK (env : Env) (l : List Ident) : Prop :=
  ∀ i (h : i < l.length), l.get ⟨i, h⟩ = env.rootID ∨
    ∃ b, env.blocksByID (l.get ⟨i, h⟩) = some b ∧ b.parentID ∈ l.take i

theorem orderOK_append (env : Env) (l : List Ident) (x : Ident)
    (hl : orderOK env l)
    (hx : x = env.rootID ∨ ∃ b, env.blocksByID x = some b ∧ b.parentID ∈ l) :
    orderOK env (l ++ [x]) := by
  intro i h
  rcases Nat.lt_or_ge i l.length with hi | hi
  · have hget : (l ++ [x]).get ⟨i, h⟩ = l.get ⟨i, hi⟩ := List.get_append i hi
    have htake : (l ++ [x]).take i = l.take i :=
      List.take_append_of_le_length (Nat.le_of_lt hi)
    rw [hget, htake]
    exact hl i hi
  · have hlen : (l ++ [x]).length = l.length + 1 := by simp
    have hle : i = l.length := by omega
    subst hle
    have hget : (l ++ [x]).get ⟨l.length, h⟩ = x := by
      rw [List.get_append_right] <;> simp
    have htake : (l ++ [x]).take l.length = l :=
      List.take_left l [x]
    rw [hget, htake]
    exact hx

/-- Soundness of the durable execution state: the ghost order satisfies
the parent-before-child chain condition, and both the execution-result
index and the executed-blocks index only mention ordered blocks. -/
def esOK (env : Env) (s : EngineState) : Prop :=
  orderOK env s.es.execOrder ∧
  (∀ p ∈ s.es.execResults, p.1 ∈ s.es.execOrder) ∧
  (∀ id ∈ s.es.executed, id ∈ s.es.execOrder)

theorem esOK_of_es_eq (env : Env) {s s' : EngineState} (h : s'.es = s.es)
    (hOK : esOK env s) : esOK env s' := by
  unfold esOK
  rw [h]
  exact hOK

theorem esOK_writeResults (env : Env) (id resultID endState : Ident) (height : Nat)
    (s : EngineState) (hOK : esOK env s)
    (hpar : id = env.rootID ∨
      ∃ b, env.blocksByID id = some b ∧ b.parentID ∈ s.es.execOrder) :
    esOK env (writeResults id resultID endState height s) := by
  obtain ⟨hord, hres, hexe⟩ := hOK
  by_cases hid : id ∈ s.es.executed
  · refine ⟨?_, ?_, ?_⟩
    · simpa [writeResults, hid] using hord
    · intro p hp
      simp only [writeResults, if_pos hid] at hp ⊢
      rcases aset_mem _ _ _ _ hp with h | h
      · rw [h]; exact hexe id hid
      · exact hres p h
    · intro i hi
      simp only [writeResults, if_pos hid] at hi ⊢
      exact hexe i hi
  · refine ⟨?_, ?_, ?_⟩
    · simp only [writeResults, if_neg hid]
      exact orderOK_append env _ id hord hpar
    · intro p hp
      simp only [writeResults, if_neg hid] at hp ⊢
      rcases aset_mem _ _ _ _ hp with h | h
      · rw [h]; exact List.mem_append_right _ (List.mem_singleton.mpr rfl)
      · exact List.mem_append_left _ (hres p h)
    · intro i hi
      simp only [writeResults, if_neg hid] at hi ⊢
      rcases List.mem_append.mp hi with h | h
      · exact List.mem_append_left _ (hexe i h)
      · exact List.mem_append_right _ h

theorem esOK_executeBlock (env : Env) (id : Ident) (s : EngineState)
    (hHeap : heapOK env s) (hOK : esOK env s) : esOK env (executeBlock env id s).2 := by
  cases heb : alookup s.ebs id with
  | none => simpa [executeBlock, heb] using hOK
  | some eb =>
    cases hpr : alookup s.es.execResults eb.block.parentID with
    | none => simpa [executeBlock, heb, hpr] using hOK
    | some prid =>
      cases hss : eb.startState with
      | none => simpa [executeBlock, heb, hpr, hss] using hOK
      | some st =>
        cases hcp : env.compute prid id st with
        | none => simpa [executeBlock, heb, hpr, hss, hcp] using hOK
        | some p =>
          obtain ⟨endState, resultID⟩ := p
          have hblk : ebBlock s id = some eb.block := by
            unfold ebBlock
            rw [heb]
            rfl
          obtain ⟨hbid, hbenv⟩ := hHeap id eb.block hblk
          have hpar : id = env.rootID ∨
              ∃ b, env.blocksByID id = some b ∧ b.parentID ∈ s.es.execOrder := by
            right
            exact ⟨eb.block, hbenv,
              hOK.2.1 (eb.block.parentID, prid) (alookup_mem _ _ _ hpr)⟩
          have hsave : esOK env
              (saveExecutionResults env id resultID endState eb.block.height s).2 := by
            unfold saveExecutionResults
            split
            · exact hOK
            · split
              · split
                · exact esOK_writeResults env id resultID endState eb.block.height s hOK hpar
                · exact hOK
              · exact esOK_writeResults env id resultID endState eb.block.height s hOK hpar
          cases h2 : saveExecutionResults env id resultID endState eb.block.height s with
          | mk r s2 =>
            rw [h2] at hsave
            simp only at hsave
            cases r with
            | ok u =>
              simp only [executeBlock, heb, hpr, hss, hcp, h2]
              exact esOK_of_es_eq env (onBlockExecuted_es env id endState s2) hsave
            | err => simpa [executeBlock, heb, hpr, hss, hcp, h2] using hsave
            | fatal => simpa [executeBlock, heb, hpr, hss, hcp, h2] using hsave

/-- The global invariant: a well-formed heap and a sound durable
execution state. -/
def GlobalInv (env : Env) (s : EngineState) : Prop :=
  heapOK env s ∧ esOK env s

theorem inv_step (env : Env) (hEnv : EnvOK env) {s s' : EngineState}
    (hstep : Step env s s') (hInv : GlobalInv env s) : GlobalInv env s' := by
  obtain ⟨hHeap, hEs⟩ := hInv
  refine ⟨heapOK_step env hEnv hstep hHeap, ?_⟩
  cases hstep with
  | handle b _ _ hb hs' =>
    subst hs'
    exact esOK_of_es_eq env (handleBlock_es env b s) hEs
  | collection collID txs _ _ hs' =>
    subst hs'
    exact esOK_of_es_eq env (handleCollection_es collID txs s) hEs
  | finish id _ _ _ hs' =>
    subst hs'
    unfold finishExecute
    refine esOK_executeBlock env id _ ?_ ?_
    · exact heapOK_of_ebBlock_eq env (fun y => rfl) hHeap
    · exact esOK_of_es_eq env rfl hEs
  | reload _ _ hs' =>
    subst hs'
    exact esOK_of_es_eq env (reloadLastExecutedStep_es env s) hEs

theorem inv_reach (env : Env) (hEnv : EnvOK env) {s0 s : EngineState}
    (hReach : Reach env s0 s) (hInv : GlobalInv env s0) : GlobalInv env s := by
  induction hReach with
  | refl => exact hInv
  | tail t u hr hstep ih => exact inv_step env hEnv hstep ih

theorem inv_initState (env : Env) (r0 c0 : Ident) (h0 : Nat)
    (cs : List (Ident × CollLookup)) : GlobalInv env (initState env r0 c0 h0 cs) := by
  refine ⟨?_, ?_, ?_, ?_⟩
  · intro x b hx
    simp [initState, ebBlock, alookup] at hx
  · intro i h
    have hlen : i < 1 := by simpa [initState] using h
    have h0 : i = 0 := Nat.lt_one_iff.mp hlen
    subst h0
    left
    rfl
  · intro p hp
    simp [initState] at hp
    simp [initState, hp]
  · intro i hi
    simp [initState] at hi
    simp [initState, hi]

/-- C1: For every block B that reaches the executed state, B's parent was
executed before B.  In any state reachable from the bootstrapped initial
state, every block of the executed-blocks index is either the root block
or occurs in the ghost execution order strictly after its parent:
execution only begins after `StartState` is set (the `IsComplete` gate of
`executeBlockIfComplete`), `StartState` is set only from the parent's
persisted commitment at enqueue or from the parent's end state in
`onBlockExecuted`, and `executeBlock` saves a block's result only after
the parent's execution result is already indexed.  No ordering between
siblings is imposed: the step relation interleaves their executions
freely. -/
theorem parent_executed_before_child (env : Env) (r0 c0 : Ident) (h0 : Nat)
    (cs : List (Ident × CollLookup)) (s : EngineState) (B : Ident)
    (hEnv : EnvOK env)
    (hReach : Reach env (initState env r0 c0 h0 cs) s)
    (hB : B ∈ s.es.executed) :
    B = env.rootID ∨
      ∃ b i j, ∃ (hi : i < s.es.execOrder.length) (hj : j < s.es.execOrder.length),
        env.blocksByID B = some b ∧ i < j ∧
        s.es.execOrder.get ⟨j, hj⟩ = B ∧ s.es.execOrder.get ⟨i, hi⟩ = b.parentID := by
  obtain ⟨hHeap, hOrd, hRes, hExe⟩ :=
    inv_reach env hEnv hReach (inv_initState env r0 c0 h0 cs)
  have hBo : B ∈ s.es.execOrder := hExe B hB
  obtain ⟨j, hj, hgetj⟩ := List.getElem_of_mem hBo
  rcases hOrd j hj with hroot | ⟨b, hbB, hpar⟩
  · left
    rw [← hgetj]
    simpa [List.get_eq_getElem] using hroot
  · right
    rw [show s.es.execOrder.get ⟨j, hj⟩ = s.es.execOrder[j] from rfl, hgetj] at hbB
    obtain ⟨i, him, hgeti⟩ := List.mem_take_iff_getElem.mp hpar
    have hij : i < j := lt_of_lt_of_le him (min_le_left _ _)
    have hi : i < s.es.execOrder.length := lt_of_lt_of_le him (min_le_right _ _)
    exact ⟨b, i, j, hi, hj, hbB, hij, hgetj, hgeti⟩

/-- A concrete environment and bootstrap used by witnesses: a linear
chain of blocks `n ← n+1` rooted at 0, every computation succeeding. -/
def envW : Env :=
  { blocksByID := fun id => some ⟨id, id - 1, id, []⟩
    compute := fun _ id st => some (st + id, id + 1000)
    saveErr := fun _ => false
    guarantors := fun _ => some [7]
    headers := fun id => some id
    rootID := 0 }

theorem envW_ok : EnvOK envW := by
  intro id b hb
  cases hb
  rfl

/-- Witness for `parent_executed_before_child` at the initial state and
the root block. -/
theorem parent_executed_before_child_witness :
    0 = envW.rootID ∨
      ∃ b i j,
        ∃ (hi : i < (initState envW 5 6 0 []).es.execOrder.length)
          (hj : j < (initState envW 5 6 0 []).es.execOrder.length),
        envW.blocksByID 0 = some b ∧ i < j ∧
        (initState envW 5 6 0 []).es.execOrder.get ⟨j, hj⟩ = 0 ∧
        (initState envW 5 6 0 []).es.execOrder.get ⟨i, hi⟩ = b.parentID :=
  parent_executed_before_child envW 5 6 0 [] (initState envW 5 6 0 []) 0
    envW_ok (Reach.refl _) (by simp [initState, envW])

/-! ## Idempotence of block intake -/

mutual

theorem containsB_insertUnder (q : QTree) (pid cid : Ident)
    (h : q.containsB pid = true) : (q.insertUnder pid cid).containsB cid = true := by
  cases q with
  | node i cs =>
    by_cases hip : i = pid
    · simp [QTree.insertUnder, hip, QTree.containsB, QTree.containsAnyB]
    · simp only [QTree.containsB, Bool.or_eq_true, beq_iff_eq] at h
      rcases h with h | h
      · exact absurd h hip
      · simp only [QTree.insertUnder, if_neg hip, QTree.containsB, Bool.or_eq_true]
        exact Or.inr (containsAnyB_insertUnderAll cs pid cid h)

theorem containsAnyB_insertUnderAll (cs : List QTree) (pid cid : Ident)
    (h : QTree.containsAnyB cs pid = true) :
    QTree.containsAnyB (QTree.insertUnderAll cs pid cid) cid = true := by
  cases cs with
  | nil => simp [QTree.containsAnyB] at h
  | cons t ts =>
    simp only [QTree.containsAnyB, Bool.or_eq_true] at h
    simp only [QTree.insertUnderAll, QTree.containsAnyB, Bool.or_eq_true]
    rcases h with h | h
    · exact Or.inl (containsB_insertUnder t pid cid h)
    · exact Or.inr (containsAnyB_insertUnderAll ts pid cid h)

end

/-- After a successful `TryAdd`, the queue contains the block. -/
theorem tryAdd_contains (q : QTree) (id pid : Ident) (q' : QTree) (isNew : Bool)
    (h : q.tryAdd id pid = (q', true, isNew)) : q'.containsB id = true := by
  unfold QTree.tryAdd at h
  by_cases h1 : q.containsB id = true
  · rw [if_pos h1] at h
    cases h
    exact h1
  · rw [if_neg h1] at h
    by_cases h2 : q.containsB pid = true
    · rw [if_pos h2] at h
      cases h
      exact containsB_insertUnder q pid id h2
    · rw [if_neg h2] at h
      cases h

/-- Re-enqueueing a block right after it was enqueued reports it as not
added and leaves the forest unchanged. -/
theorem enqueueQ_idem (id pid : Ident) :
    ∀ qs : List QTree,
      enqueueQ id pid (enqueueQ id pid qs).1 = ((enqueueQ id pid qs).1, false, false) := by
  intro qs
  induction qs with
  | nil =>
    simp [enqueueQ, QTree.tryAdd, QTree.containsB, QTree.containsAnyB]
  | cons q t ih =>
    cases hta : q.tryAdd id pid with
    | mk q' p =>
      cases p with
      | mk stored isNew =>
        cases stored with
        | true =>
          have hc : q'.containsB id = true := tryAdd_contains q id pid q' isNew hta
          have hta2 : q'.tryAdd id pid = (q', true, false) := by
            unfold QTree.tryAdd
            rw [if_pos hc]
          simp [enqueueQ, hta, hta2]
        | false =>
          have hqeq : q' = q := by
            unfold QTree.tryAdd at hta
            by_cases h1 : q.containsB id = true
            · rw [if_pos h1] at hta; cases hta
            · rw [if_neg h1] at hta
              by_cases h2 : q.containsB pid = true
              · rw [if_pos h2] at hta; cases hta
              · rw [if_neg h2] at hta; cases hta; rfl
          rw [hqeq] at hta
          cases hrest : enqueueQ id pid t with
          | mk t' p2 =>
            cases p2 with
            | mk added head =>
              have ih2 := ih
              rw [hrest] at ih2
              simp only at ih2
              simp only [enqueueQ, hta, hrest, ih2]

theorem updateEB_queues (s : EngineState) (id : Ident)
    (f : ExecutableBlock → ExecutableBlock) : (updateEB s id f).queues = s.queues := by
  unfold updateEB
  cases alookup s.ebs id <;> rfl

theorem executeBlockIfComplete_queues (id : Ident) (s : EngineState) :
    (executeBlockIfComplete id s).2.queues = s.queues := by
  unfold executeBlockIfComplete
  dsimp only
  split
  · rfl
  · split
    · rfl
    · split
      · simp [updateEB_queues]
      · rfl

theorem addCollLoop_queues (collID : Ident) (txs : List Nat) :
    ∀ (l : List Ident) (s : EngineState), (addCollLoop collID txs l s).2.queues = s.queues := by
  intro l
  induction l with
  | nil => intro s; rfl
  | cons b rest ih =>
    intro s
    unfold addCollLoop
    split
    · rfl
    · split
      · rfl
      · split
        · exact ih s
        · dsimp only
          rw [ih, executeBlockIfComplete_queues, updateEB_queues]

theorem addCollectionToMempool_queues (collID : Ident) (txs : List Nat)
    (s : EngineState) : (addCollectionToMempool collID txs s).2.queues = s.queues := by
  cases h : alookup s.blockByCollection collID with
  | none => simp [addCollectionToMempool, h]
  | some blks =>
    have h1 := addCollLoop_queues collID txs blks s
    cases h2 : addCollLoop collID txs blks s with
    | mk r s2 =>
      rw [h2] at h1
      simp only at h1
      cases r <;> simp only [addCollectionToMempool, h, h2] <;> exact h1

theorem fetchAndHandleCollection_queues (env : Env) :
    ∀ (l : List Ident) (s : EngineState),
      (fetchAndHandleCollection env l s).2.queues = s.queues := by
  intro l
  induction l with
  | nil => intro s; rfl
  | cons g gs ih =>
    intro s
    cases h : alookup s.collStore g with
    | none =>
      cases hg : env.guarantors g with
      | none => simp [fetchAndHandleCollection, h, hg]
      | some _ =>
        simp only [fetchAndHandleCollection, h, hg]
        rw [ih]
    | some cl =>
      cases cl with
      | exception => simp [fetchAndHandleCollection, h]
      | ok txs =>
        have h1 := addCollectionToMempool_queues g txs s
        cases h2 : addCollectionToMempool g txs s with
        | mk r s2 =>
          rw [h2] at h1
          simp only at h1
          cases r <;> simp only [fetchAndHandleCollection, h, h2] <;>
            first
              | exact h1
              | rw [ih]; exact h1

theorem matchLoop_queues (ebID : Ident) :
    ∀ (l : List Ident) (s : EngineState), (matchLoop ebID l s).2.queues = s.queues := by
  intro l
  induction l with
  | nil => intro s; rfl
  | cons g gs ih =>
    intro s
    unfold matchLoop
    dsimp only
    split
    · rw [ih, updateEB_queues]
    · dsimp only
      rw [ih, updateEB_queues]

theorem matchAndFindMissingCollections_queues (ebID : Ident) (s : EngineState) :
    (matchAndFindMissingCollections ebID s).2.queues = s.queues := by
  unfold matchAndFindMissingCollections
  split
  · rfl
  · rw [matchLoop_queues]

/-- When the block is reported as not added, `enqueueBlockAndCheckExecutable`
returns the empty missing list and makes no modification at all. -/
theorem enqueueBlock_notAdded (b : Block) (s : EngineState) (qs' : List QTree) (head : Bool)
    (h : enqueueQ b.id b.parentID s.queues = (qs', false, head)) :
    enqueueBlockAndCheckExecutable b s = (.ok [], s) := by
  simp [enqueueBlockAndCheckExecutable, h]

theorem enqueueBlock_queues (b : Block) (s : EngineState) (qs' : List QTree) (head : Bool)
    (h : enqueueQ b.id b.parentID s.queues = (qs', true, head)) :
    (enqueueBlockAndCheckExecutable b s).2.queues = qs' := by
  have hrest : ∀ t : EngineState, t.queues = qs' →
      ∀ (missing : List Ident) (u : EngineState),
        matchAndFindMissingCollections b.id t = (missing, u) →
        (if head then (executeBlockIfComplete b.id u).2 else u).queues = qs' := by
    intro t ht missing u hu
    have h1 := matchAndFindMissingCollections_queues b.id t
    rw [hu] at h1
    simp only at h1
    cases head with
    | false => rw [if_neg Bool.false_ne_true, h1, ht]
    | true => rw [if_pos rfl, executeBlockIfComplete_queues, h1, ht]
  cases hsc : alookup s.es.scStore b.parentID with
  | none =>
    cases hm : matchAndFindMissingCollections b.id
        { s with queues := qs', ebs := aset s.ebs b.id ⟨b, [], none, false⟩ } with
    | mk missing u =>
      simp only [enqueueBlockAndCheckExecutable, h, hsc, hm]
      exact hrest _ rfl missing u hm
  | some sc =>
    cases sc with
    | exception => simp [enqueueBlockAndCheckExecutable, h, hsc]
    | ok c =>
      cases hm : matchAndFindMissingCollections b.id (updateEB
          { s with queues := qs', ebs := aset s.ebs b.id ⟨b, [], none, false⟩ }
          b.id (fun eb => { eb with startState := some c })) with
      | mk missing u =>
        simp only [enqueueBlockAndCheckExecutable, h, hsc, hm]
        refine hrest _ ?_ missing u hm
        rw [updateEB_queues]

theorem handleBlock_queues_added (env : Env) (b : Block) (s : EngineState)
    (qs' : List QTree) (head : Bool) (hex : b.id ∉ s.es.executed)
    (h : enqueueQ b.id b.parentID s.queues = (qs', true, head)) :
    (handleBlock env b s).2.queues = qs' := by
  have hq := enqueueBlock_queues b s qs' head h
  cases h2 : enqueueBlockAndCheckExecutable b s with
  | mk r s2 =>
    rw [h2] at hq
    simp only at hq
    cases r with
    | ok missing =>
      simp only [handleBlock, if_neg hex, h2, addOrFetch]
      rw [fetchAndHandleCollection_queues]
      exact hq
    | err => simpa [handleBlock, if_neg hex, h2] using hq
    | fatal => simpa [handleBlock, if_neg hex, h2] using hq

/-- One further `handleBlock` for the same block changes nothing: the
executed-blocks index was untouched, and the block now sits in a queue,
so the enqueue probe reports it as already present. -/
theorem handleBlock_station (env : Env) (b : Block) (s : EngineState) :
    handleBlock env b (handleBlock env b s).2 = (.ok (), (handleBlock env b s).2) := by
  by_cases hex : b.id ∈ s.es.executed
  · simp [handleBlock, hex]
  · cases henq : enqueueQ b.id b.parentID s.queues with
    | mk qs' p =>
      cases p with
      | mk added head =>
        have hex1 : b.id ∉ (handleBlock env b s).2.es.executed := by
          rw [handleBlock_es]
          exact hex
        cases added with
        | false =>
          have hnb := enqueueBlock_notAdded b s qs' head henq
          have hs1 : (handleBlock env b s).2 = s := by
            simp [handleBlock, if_neg hex, hnb, addOrFetch, fetchAndHandleCollection]
          rw [hs1]
          simp [handleBlock, if_neg hex, hnb, addOrFetch, fetchAndHandleCollection]
        | true =>
          have hq1 : (handleBlock env b s).2.queues = qs' :=
            handleBlock_queues_added env b s qs' head hex henq
          have hidem := enqueueQ_idem b.id b.parentID s.queues
          rw [henq] at hidem
          simp only at hidem
          rw [← hq1] at hidem
          have hnb := enqueueBlock_notAdded b (handleBlock env b s).2
            (handleBlock env b s).2.queues false hidem
          generalize hS : (handleBlock env b s).2 = s1 at hex1 hnb ⊢
          simp [handleBlock, hex1, hnb, addOrFetch, fetchAndHandleCollection]

/-- N-fold application of the block-handling path. -/
def handleBlockN (env : Env) (b : Block) : Nat → EngineState → EngineState
  | 0, s => s
  | n + 1, s => handleBlockN env b n (handleBlock env b s).2

/-- C2: `HandleBlock` is idempotent.  Calling the block-handling path
N ≥ 1 times leaves the same end state as calling it once; a block
already recorded in the executed-blocks index returns with no state
change at all; and a block already present in some execution queue is
reported by the enqueue as not added, with no modification and no
missing collections. -/
theorem handleBlock_idempotent (env : Env) (b : Block) (s : EngineState) (n : Nat)
    (hn : 1 ≤ n) :
    handleBlockN env b n s = (handleBlock env b s).2 ∧
    (b.id ∈ s.es.executed → handleBlock env b s = (.ok (), s)) ∧
    (∀ qs' head, enqueueQ b.id b.parentID s.queues = (qs', false, head) →
      enqueueBlockAndCheckExecutable b s = (.ok [], s)) := by
  refine ⟨?_, ?_, ?_⟩
  · obtain ⟨m, rfl⟩ : ∃ m, n = m + 1 := ⟨n - 1, by omega⟩
    clear hn
    induction m generalizing s with
    | zero => rfl
    | succ k ih =>
      show handleBlockN env b (k + 1) (handleBlock env b s).2 = (handleBlock env b s).2
      rw [ih ((handleBlock env b s).2)]
      rw [handleBlock_station]
  · intro hex
    simp [handleBlock, hex]
  · intro qs' head h
    exact enqueueBlock_notAdded b s qs' head h

/-- Witness for `handleBlock_idempotent`: three calls on a fresh block
equal one call. -/
theorem handleBlock_idempotent_witness :
    (handleBlockN envW ⟨1, 0, 1, []⟩ 3 (initState envW 5 6 0 [])
        = (handleBlock envW ⟨1, 0, 1, []⟩ (initState envW 5 6 0 [])).2 ∧
      ((1 : Ident) ∈ (initState envW 5 6 0 []).es.executed →
        handleBlock envW ⟨1, 0, 1, []⟩ (initState envW 5 6 0 [])
          = (.ok (), initState envW 5 6 0 [])) ∧
      (∀ qs' head,
        enqueueQ 1 0 (initState envW 5 6 0 []).queues = (qs', false, head) →
        enqueueBlockAndCheckExecutable ⟨1, 0, 1, []⟩ (initState envW 5 6 0 [])
          = (.ok [], initState envW 5 6 0 []))) :=
  handleBlock_idempotent envW ⟨1, 0, 1, []⟩ (initState envW 5 6 0 []) 3 (by omega)

/-! ## The TryExecute latch -/

/-- C3: `TryExecute` (`executeBlockIfComplete`) is a one-shot latch.
It returns `false` when the block's `Executing` flag is already set or
the block is not complete (touching nothing but the ghost attempts
log); otherwise it sets `Executing := true`, launches execution as a
background task and returns `true` - and a second call for the same
block then returns `false`, so no second execution of the block can
start once `Executing` is `true`. -/
theorem execIfComplete_false_of_executing (id : Ident) (t : EngineState)
    (eb : ExecutableBlock) (h : alookup t.ebs id = some eb) (hx : eb.executing = true) :
    (executeBlockIfComplete id t).1 = false := by
  have h' : alookup ({ t with attempts := t.attempts ++ [id] } : EngineState).ebs id
      = some eb := h
  simp [executeBlockIfComplete, h', hx]

theorem tryExecute_latch (id : Ident) (s : EngineState) (eb : ExecutableBlock)
    (heb : alookup s.ebs id = some eb) :
    (eb.executing = true ∨ eb.IsComplete = false →
      (executeBlockIfComplete id s).1 = false ∧
      (executeBlockIfComplete id s).2 = { s with attempts := s.attempts ++ [id] }) ∧
    (eb.executing = false → eb.IsComplete = true →
      (executeBlockIfComplete id s).1 = true ∧
      alookup (executeBlockIfComplete id s).2.ebs id = some { eb with executing := true } ∧
      (executeBlockIfComplete id s).2.launched = s.launched ++ [id] ∧
      (executeBlockIfComplete id (executeBlockIfComplete id s).2).1 = false) := by
  constructor
  · intro hoff
    rcases hoff with hexe | hinc
    · simp [executeBlockIfComplete, heb, hexe]
    · cases hexe : eb.executing with
      | true => simp [executeBlockIfComplete, heb, hexe]
      | false => simp [executeBlockIfComplete, heb, hexe, hinc]
  · intro hexe hcomp
    have hres : executeBlockIfComplete id s =
        (true,
          { updateEB { s with attempts := s.attempts ++ [id] } id
              (fun eb => { eb with executing := true }) with
              launched := s.launched ++ [id] }) := by
      simp [executeBlockIfComplete, heb, hexe, hcomp]
    have hupd : updateEB { s with attempts := s.attempts ++ [id] } id
        (fun eb => { eb with executing := true }) =
        { s with attempts := s.attempts ++ [id],
                 ebs := aset s.ebs id { eb with executing := true } } := by
      unfold updateEB
      rw [show alookup ({ s with attempts := s.attempts ++ [id] } : EngineState).ebs id
          = some eb from heb]
    have hlook : alookup (executeBlockIfComplete id s).2.ebs id
        = some { eb with executing := true } := by
      rw [hres, hupd]
      show alookup (aset s.ebs id { eb with executing := true }) id = _
      rw [alookup_aset, if_pos rfl]
    refine ⟨by rw [hres], hlook, by rw [hres, hupd], ?_⟩
    exact execIfComplete_false_of_executing id _ _ hlook rfl

/-- A bare durable state used by concrete witness states. -/
def esW0 : ExecState :=
  { scStore := [], executed := [], execResults := [], lastExecuted := (0, 0), execOrder := [] }

/-- A state holding one complete, not-yet-executing block `1`. -/
def sW3 : EngineState :=
  { queues := [QTree.node 1 []]
    ebs := [(1, ⟨⟨1, 0, 1, []⟩, [], some 6, false⟩)]
    blockByCollection := []
    collStore := []
    es := esW0
    requested := []
    launched := []
    attempts := [] }

/-- Witness for `tryExecute_latch` on the complete block of `sW3`. -/
theorem tryExecute_latch_witness :
    ((⟨⟨1, 0, 1, []⟩, [], some 6, false⟩ : ExecutableBlock).executing = true ∨
      (⟨⟨1, 0, 1, []⟩, [], some 6, false⟩ : ExecutableBlock).IsComplete = false →
      (executeBlockIfComplete 1 sW3).1 = false ∧
      (executeBlockIfComplete 1 sW3).2 = { sW3 with attempts := sW3.attempts ++ [1] }) ∧
    ((⟨⟨1, 0, 1, []⟩, [], some 6, false⟩ : ExecutableBlock).executing = false →
      (⟨⟨1, 0, 1, []⟩, [], some 6, false⟩ : ExecutableBlock).IsComplete = true →
      (executeBlockIfComplete 1 sW3).1 = true ∧
      alookup (executeBlockIfComplete 1 sW3).2.ebs 1
        = some { (⟨⟨1, 0, 1, []⟩, [], some 6, false⟩ : ExecutableBlock) with
            executing := true } ∧
      (executeBlockIfComplete 1 sW3).2.launched = sW3.launched ++ [1] ∧
      (executeBlockIfComplete 1 (executeBlockIfComplete 1 sW3).2).1 = false) :=
  tryExecute_latch 1 sW3 ⟨⟨1, 0, 1, []⟩, [], some 6, false⟩ (by rfl)

/-! ## Startup recovery -/

/-- C4: the startup-recovery fragment re-enqueues the last-executed
block if and only if that block is not the root block and its execution
result is not actually present in the executed-blocks index - and when
the marker points at the root block, the step returns with no state
change, so the root is never re-executed on restart. -/
theorem reload_lastExecuted_iff (env : Env) (s : EngineState) (h : Nat)
    (hhead : env.headers s.es.lastExecuted.1 = some h) :
    ((reloadLastExecutedStep env s).2.1 = true ↔
      (env.rootID ≠ s.es.lastExecuted.1 ∧ s.es.lastExecuted.1 ∉ s.es.executed)) ∧
    (env.rootID = s.es.lastExecuted.1 →
      reloadLastExecutedStep env s = (.ok (), false, s)) := by
  constructor
  · by_cases hr : env.rootID = s.es.lastExecuted.1
    · simp [reloadLastExecutedStep, hhead, hr]
    · by_cases he : s.es.lastExecuted.1 ∈ s.es.executed
      · simp [reloadLastExecutedStep, hhead, hr, he]
      · cases h2 : reloadBlock env s.es.lastExecuted.1 s with
        | mk r s2 => simp [reloadLastExecutedStep, hhead, hr, he, h2]
  · intro hr
    simp [reloadLastExecutedStep, hhead, hr]

/-- Witness for `reload_lastExecuted_iff` at the bootstrapped initial
state, whose marker points at the root block. -/
theorem reload_lastExecuted_iff_witness :
    (((reloadLastExecutedStep envW (initState envW 5 6 0 [])).2.1 = true ↔
      (envW.rootID ≠ (initState envW 5 6 0 []).es.lastExecuted.1 ∧
        (initState envW 5 6 0 []).es.lastExecuted.1 ∉
          (initState envW 5 6 0 []).es.executed)) ∧
    (envW.rootID = (initState envW 5 6 0 []).es.lastExecuted.1 →
      reloadLastExecutedStep envW (initState envW 5 6 0 [])
        = (.ok (), false, initState envW 5 6 0 []))) :=
  reload_lastExecuted_iff envW (initState envW 5 6 0 []) 0 rfl

/-! ## StartState population at enqueue -/

/-- The `StartState` currently recorded in the heap for an ID. -/
def ebStart (s : EngineState) (x : Ident) : Option (Option Ident) :=
  (alookup s.ebs x).map ExecutableBlock.startState

theorem ebStart_updateEB (s : EngineState) (id : Ident)
    (f : ExecutableBlock → ExecutableBlock)
    (hf : ∀ eb, (f eb).startState = eb.startState) (x : Ident) :
    ebStart (updateEB s id f) x = ebStart s x := by
  unfold updateEB
  cases h : alookup s.ebs id with
  | none => rfl
  | some eb =>
    unfold ebStart
    simp only [alookup_aset]
    by_cases hx : x = id
    · subst hx
      simp [h, hf]
    · simp [hx]

theorem executeBlockIfComplete_ebStart (id : Ident) (s : EngineState) (x : Ident) :
    ebStart (executeBlockIfComplete id s).2 x = ebStart s x := by
  unfold executeBlockIfComplete
  dsimp only
  split
  · rfl
  · split
    · rfl
    · split
      · show ebStart { updateEB _ id _ with launched := _ } x = _
        have h1 := ebStart_updateEB { s with attempts := s.attempts ++ [id] } id
          (fun eb => { eb with executing := true }) (fun _ => rfl) x
        unfold ebStart at h1 ⊢
        simpa using h1
      · rfl

theorem matchLoop_ebStart (ebID : Ident) :
    ∀ (l : List Ident) (s : EngineState) (x : Ident),
      ebStart (matchLoop ebID l s).2 x = ebStart s x := by
  intro l
  induction l with
  | nil => intro s x; rfl
  | cons g gs ih =>
    intro s x
    unfold matchLoop
    dsimp only
    split
    · rw [ih]
      show ebStart (updateEB s ebID _) x = _
      refine ebStart_updateEB _ _ _ ?_ x
      intro eb
      rfl
    · dsimp only
      rw [ih]
      show ebStart (updateEB s ebID _) x = _
      refine ebStart_updateEB _ _ _ ?_ x
      intro eb
      rfl

theorem matchAndFindMissingCollections_ebStart (ebID : Ident) (s : EngineState)
    (x : Ident) :
    ebStart (matchAndFindMissingCollections ebID s).2 x = ebStart s x := by
  unfold matchAndFindMissingCollections
  split
  · rfl
  · rw [matchLoop_ebStart]

/-- C5: when a block is enqueued (and was not already present), its
`StartState` is populated from `StateCommitmentByBlockID(block.ParentID)`:
on success the parent's commitment is stored in `StartState`; on
NOT-FOUND `StartState` is left unset and enqueueing proceeds; any other
error from the lookup is fatal, terminating the process right after the
block has been added to the forest. -/
theorem enqueue_populates_startState (b : Block) (s : EngineState)
    (qs' : List QTree) (head : Bool)
    (henq : enqueueQ b.id b.parentID s.queues = (qs', true, head)) :
    (∀ c, alookup s.es.scStore b.parentID = some (ScLookup.ok c) →
      (∃ missing, (enqueueBlockAndCheckExecutable b s).1 = Res.ok missing) ∧
      ebStart (enqueueBlockAndCheckExecutable b s).2 b.id = some (some c)) ∧
    (alookup s.es.scStore b.parentID = none →
      (∃ missing, (enqueueBlockAndCheckExecutable b s).1 = Res.ok missing) ∧
      ebStart (enqueueBlockAndCheckExecutable b s).2 b.id = some none) ∧
    (alookup s.es.scStore b.parentID = some ScLookup.exception →
      enqueueBlockAndCheckExecutable b s =
        (Res.fatal,
          { s with queues := qs', ebs := aset s.ebs b.id ⟨b, [], none, false⟩ })) := by
  have hl0 : alookup ({ s with queues := qs', ebs := aset s.ebs b.id ⟨b, [], none, false⟩ } : EngineState).ebs b.id = some ⟨b, [], none, false⟩ := by
    show alookup (aset s.ebs b.id ⟨b, [], none, false⟩) b.id = _
    rw [alookup_aset, if_pos rfl]
  have hbase : ebStart { s with queues := qs', ebs := aset s.ebs b.id ⟨b, [], none, false⟩ } b.id = some none := by
    unfold ebStart
    rw [hl0]
    rfl
  have hrest : ∀ (t : EngineState) (v : Option Ident), ebStart t b.id = some v →
      ∀ (missing : List Ident) (u : EngineState),
        matchAndFindMissingCollections b.id t = (missing, u) →
        ebStart (if head then (executeBlockIfComplete b.id u).2 else u) b.id = some v := by
    intro t v ht missing u hu
    have h1 := matchAndFindMissingCollections_ebStart b.id t b.id
    rw [hu] at h1
    simp only at h1
    cases head with
    | false => rw [if_neg Bool.false_ne_true, h1, ht]
    | true => rw [if_pos rfl, executeBlockIfComplete_ebStart, h1, ht]
  refine ⟨?_, ?_, ?_⟩
  · intro c hsc
    have hset : ebStart (updateEB
        { s with queues := qs', ebs := aset s.ebs b.id ⟨b, [], none, false⟩ }
        b.id (fun eb => { eb with startState := some c })) b.id = some (some c) := by
      unfold updateEB
      rw [hl0]
      unfold ebStart
      show (alookup (aset (aset s.ebs b.id ⟨b, [], none, false⟩) b.id ⟨b, [], some c, false⟩) b.id).map ExecutableBlock.startState = some (some c)
      rw [alookup_aset, if_pos rfl]
      rfl
    cases hm : matchAndFindMissingCollections b.id (updateEB
        { s with queues := qs', ebs := aset s.ebs b.id ⟨b, [], none, false⟩ }
        b.id (fun eb => { eb with startState := some c })) with
    | mk missing u =>
      constructor
      · exact ⟨missing, by simp [enqueueBlockAndCheckExecutable, henq, hsc, hm]⟩
      · simp only [enqueueBlockAndCheckExecutable, henq, hsc, hm]
        exact hrest _ (some c) hset missing u hm
  · intro hsc
    cases hm : matchAndFindMissingCollections b.id
        { s with queues := qs', ebs := aset s.ebs b.id ⟨b, [], none, false⟩ } with
    | mk missing u =>
      constructor
      · exact ⟨missing, by simp [enqueueBlockAndCheckExecutable, henq, hsc, hm]⟩
      · simp only [enqueueBlockAndCheckExecutable, henq, hsc, hm]
        exact hrest _ none hbase missing u hm
  · intro hsc
    simp [enqueueBlockAndCheckExecutable, henq, hsc]

/-- Witness for `enqueue_populates_startState`: enqueueing block 1 into
the bootstrapped initial state finds the root's commitment 6. -/
theorem enqueue_populates_startState_witness :
    ((∀ c, alookup (initState envW 5 6 0 []).es.scStore 0 = some (ScLookup.ok c) →
      (∃ missing, (enqueueBlockAndCheckExecutable ⟨1, 0, 1, []⟩
        (initState envW 5 6 0 [])).1 = Res.ok missing) ∧
      ebStart (enqueueBlockAndCheckExecutable ⟨1, 0, 1, []⟩
        (initState envW 5 6 0 [])).2 1 = some (some c)) ∧
    (alookup (initState envW 5 6 0 []).es.scStore 0 = none →
      (∃ missing, (enqueueBlockAndCheckExecutable ⟨1, 0, 1, []⟩
        (initState envW 5 6 0 [])).1 = Res.ok missing) ∧
      ebStart (enqueueBlockAndCheckExecutable ⟨1, 0, 1, []⟩
        (initState envW 5 6 0 [])).2 1 = some none) ∧
    (alookup (initState envW 5 6 0 []).es.scStore 0 = some ScLookup.exception →
      enqueueBlockAndCheckExecutable ⟨1, 0, 1, []⟩ (initState envW 5 6 0 []) =
        (Res.fatal,
          { initState envW 5 6 0 [] with
              queues := [QTree.node 1 []]
              ebs := aset (initState envW 5 6 0 []).ebs 1
                ⟨⟨1, 0, 1, []⟩, [], none, false⟩ }))) :=
  enqueue_populates_startState ⟨1, 0, 1, []⟩ (initState envW 5 6 0 [])
    [QTree.node 1 []] true rfl

/-! ## OnExecuted invariant violations are logged, not fatal -/

theorem hasRoot_append (qs : List QTree) (c : QTree) (x : Ident) :
    hasRoot (qs ++ [c]) x = (hasRoot qs x || (c.rootID == x)) := by
  simp [hasRoot, List.any_append]

/-- If some dismounted child's ID already keys a queue of the forest,
the child loop aborts with a returned error. -/
theorem childLoop_err_of_conflict (finalState : Ident) :
    ∀ (cs : List QTree) (s : EngineState),
      (∃ c ∈ cs, hasRoot s.queues c.rootID = true) →
      (childLoop finalState cs s).1 = Res.err := by
  intro cs
  induction cs with
  | nil => intro s h; rcases h with ⟨c, hc, _⟩; cases hc
  | cons c rest ih =>
    intro s h
    by_cases hc : hasRoot s.queues c.rootID = true
    · simp [childLoop, hc]
    · rcases h with ⟨c', hc', hroot⟩
      rcases List.mem_cons.mp hc' with rfl | hmem
      · exact absurd hroot hc
      · simp only [childLoop, hc, if_neg hc]
        cases hm : matchAndFindMissingCollections c.rootID (updateEB
            { s with queues := s.queues ++ [c] } c.rootID
            (fun eb => { eb with startState := some finalState })) with
        | mk missing u =>
          cases hx : executeBlockIfComplete c.rootID u with
          | mk r2 u2 =>
            have hq : u2.queues = s.queues ++ [c] := by
              have h1 := executeBlockIfComplete_queues c.rootID u
              rw [hx] at h1
              simp only at h1
              have h2 := matchAndFindMissingCollections_queues c.rootID (updateEB
                { s with queues := s.queues ++ [c] } c.rootID
                (fun eb => { eb with startState := some finalState }))
              rw [hm] at h2
              simp only at h2
              rw [h1, h2, updateEB_queues]
            have hroot2 : hasRoot u2.queues c'.rootID = true := by
              rw [hq, hasRoot_append, hroot]
              rfl
            have := ih u2 ⟨c', hmem, hroot2⟩
            cases hcl : childLoop finalState rest u2 with
            | mk r3 rest3 =>
              rw [hcl] at this
              simp only at this
              simp only [hm, hx, hcl]
              exact this

/-- C9 counterexample input: an empty forest, so the executed block is
missing from the queue set. -/
def sW9 : EngineState :=
  { queues := []
    ebs := []
    blockByCollection := []
    collStore := []
    es := esW0
    requested := []
    launched := []
    attempts := [] }

/-- C9 counterexample: when the executed block is missing from the
queue set, the process does not terminate - `onBlockExecuted` returns
with the error merely logged (`Res.ok`, state unchanged), contradicting
the claim that such violations are fatal. -/
theorem onBlockExecuted_missing_queue_not_fatal :
    onBlockExecuted envW 1 0 sW9 = (Res.ok (), sW9) ∧
    (onBlockExecuted envW 1 0 sW9).1 ≠ Res.fatal := by
  constructor
  · rfl
  · intro h
    cases h

/-- C9 (amended): block-level invariant violations detected in
`onBlockExecuted` abort the queue-update with a returned error which the
caller only logs; the process does not terminate.  If the executed block
is missing from the queue set, the critical section reports an error and
`onBlockExecuted` leaves the state unchanged, returning success; if a
dismounted child is already present in the execution queues, the
critical section aborts with an error. -/
theorem onBlockExecuted_violations_logged (env : Env) (executedID finalState : Ident)
    (s : EngineState) :
    (findQueue s.queues executedID = none →
      onBlockExecutedRun executedID finalState s = (.err, [], s) ∧
      onBlockExecuted env executedID finalState s = (.ok (), s)) ∧
    (∀ i children, findQueue s.queues executedID = some (QTree.node i children) →
      (∃ c ∈ children, hasRoot s.queues c.rootID = true) →
      (onBlockExecutedRun executedID finalState s).1 = Res.err) := by
  constructor
  · intro h
    constructor
    · simp [onBlockExecutedRun, h]
    · simp [onBlockExecuted, onBlockExecutedRun, h, missingLoop]
  · intro i children h hconf
    have hcl := childLoop_err_of_conflict finalState children s hconf
    cases h2 : childLoop finalState children s with
    | mk r rest =>
      rw [h2] at hcl
      simp only at hcl
      subst hcl
      cases rest with
      | mk ms s2 => simp [onBlockExecutedRun, h, h2]

/-- Witness for `onBlockExecuted_violations_logged` at the empty
forest. -/
theorem onBlockExecuted_violations_logged_witness :
    onBlockExecutedRun 1 0 sW9 = (.err, [], sW9) ∧
    onBlockExecuted envW 1 0 sW9 = (.ok (), sW9) :=
  (onBlockExecuted_violations_logged envW 1 0 sW9).1 rfl

/-! ## Reverse-index removal -/

/-- C8 counterexample input: block 1 is complete and executing, its only
collection 5 still has a reverse-index entry naming only block 1. -/
def sW8 : EngineState :=
  { queues := [QTree.node 1 []]
    ebs := [(1, ⟨⟨1, 0, 1, [5]⟩, [(5, ⟨5, some [9]⟩)], some 6, true⟩)]
    blockByCollection := [(5, [1])]
    collStore := [(5, CollLookup.ok [9])]
    es := esW0
    requested := []
    launched := []
    attempts := [] }

/-- C8 counterexample: `onBlockExecuted` for block 1 leaves the
reverse-index entry of the executed block's own collection 5 in place
even though no other waiting block references it - contradicting the
claim that `OnExecuted` removes such entries. -/
theorem onBlockExecuted_keeps_reverse_index :
    alookup (onBlockExecuted envW 1 7 sW8).2.blockByCollection 5 = some [1] ∧
    (onBlockExecuted envW 1 7 sW8).1 = Res.ok () := by
  constructor <;> rfl

/-- C8 (amended): `onBlockExecuted` itself removes no reverse-index
entries.  A `BlocksByCollection` entry is removed exactly when its
collection is delivered to the mempool: a successful
`addCollectionToMempool` always erases the delivered collection's entry
(this also covers `OnExecuted`'s re-delivery of already-stored
collections to promoted children); an entry whose collection is never
delivered survives `OnExecuted` even when no waiting block remains. -/
theorem reverse_index_removed_on_delivery (collID : Ident) (txs : List Nat)
    (s : EngineState)
    (hok : (addCollectionToMempool collID txs s).1 = Res.ok ()) :
    alookup (addCollectionToMempool collID txs s).2.blockByCollection collID = none := by
  cases h : alookup s.blockByCollection collID with
  | none => simp [addCollectionToMempool, h]
  | some blks =>
    cases h2 : addCollLoop collID txs blks s with
    | mk r s2 =>
      cases r with
      | ok u =>
        simp only [addCollectionToMempool, h, h2]
        rw [alookup_aremove, if_pos rfl]
      | err =>
        rw [show addCollectionToMempool collID txs s = (Res.err, s2) from by
          simp [addCollectionToMempool, h, h2]] at hok
        cases hok
      | fatal =>
        rw [show addCollectionToMempool collID txs s = (Res.fatal, s2) from by
          simp [addCollectionToMempool, h, h2]] at hok
        cases hok

/-- A state with one incomplete block waiting on collection 5, used to
witness the delivery-removal theorem. -/
def sW8b : EngineState :=
  { queues := [QTree.node 1 []]
    ebs := [(1, ⟨⟨1, 0, 1, [5]⟩, [(5, ⟨5, none⟩)], some 6, false⟩)]
    blockByCollection := [(5, [1])]
    collStore := []
    es := esW0
    requested := []
    launched := []
    attempts := [] }

/-- Witness for `reverse_index_removed_on_delivery`: delivering
collection 5 to `sW8b` removes its reverse-index entry. -/
theorem reverse_index_removed_on_delivery_witness :
    alookup (addCollectionToMempool 5 [9] sW8b).2.blockByCollection 5 = none :=
  reverse_index_removed_on_delivery 5 [9] sW8b rfl

/-! ## Failures inside the executor background task -/

/-- C10: if `Execute(block)` fails before results are saved - the
parent's execution-result lookup fails, `ComputeBlock` errors, or
`SaveExecutionResults` fails with a non-data-mismatch error -
`executeBlock` returns without calling `onBlockExecuted`: the state is
left completely unchanged, so the block's queue is not dismounted, the
`Executing` flag remains `true`, and `TryExecute` keeps refusing the
block (no engine operation ever resets `Executing`), so neither the
block nor its descendants (whose queue is never dismounted) can be
executed again within the process. -/
theorem executeBlock_failure_no_promotion (env : Env) (id : Ident) (s : EngineState)
    (eb : ExecutableBlock) (heb : alookup s.ebs id = some eb)
    (hexec : eb.executing = true) :
    (alookup s.es.execResults eb.block.parentID = none →
      executeBlock env id s = (.err, s)) ∧
    (∀ prid st, alookup s.es.execResults eb.block.parentID = some prid →
      eb.startState = some st → env.compute prid id st = none →
      executeBlock env id s = (.err, s)) ∧
    (∀ prid st endState resultID,
      alookup s.es.execResults eb.block.parentID = some prid →
      eb.startState = some st → env.compute prid id st = some (endState, resultID) →
      env.saveErr id = true →
      executeBlock env id s = (.err, s)) ∧
    (executeBlockIfComplete id s).1 = false := by
  refine ⟨?_, ?_, ?_, execIfComplete_false_of_executing id s eb heb hexec⟩
  · intro hpr
    simp [executeBlock, heb, hpr]
  · intro prid st hpr hss hcp
    simp [executeBlock, heb, hpr, hss, hcp]
  · intro prid st endState resultID hpr hss hcp hsave
    simp [executeBlock, heb, hpr, hss, hcp, saveExecutionResults, hsave]

/-- A state whose block 1 is executing but whose parent has no indexed
execution result, witnessing the failure path of `executeBlock`. -/
def sW10 : EngineState :=
  { queues := [QTree.node 1 [QTree.node 2 []]]
    ebs := [(1, ⟨⟨1, 0, 1, []⟩, [], some 6, true⟩)]
    blockByCollection := []
    collStore := []
    es := esW0
    requested := []
    launched := [1]
    attempts := [] }

/-- Witness for `executeBlock_failure_no_promotion`: block 1's parent
result is missing, so `executeBlock` returns an error leaving `sW10`
unchanged, and the latch still refuses the block. -/
theorem executeBlock_failure_no_promotion_witness :
    executeBlock envW 1 sW10 = (.err, sW10) ∧
    (executeBlockIfComplete 1 sW10).1 = false :=
  ⟨(executeBlock_failure_no_promotion envW 1 sW10 ⟨⟨1, 0, 1, []⟩, [], some 6, true⟩
      rfl rfl).1 rfl,
    (executeBlock_failure_no_promotion envW 1 sW10 ⟨⟨1, 0, 1, []⟩, [], some 6, true⟩
      rfl rfl).2.2.2⟩

/-! ## Promotion of children: helper lemmas -/

/-- Is a `CompleteCollection` entry recorded on the block for this
guarantee? -/
def ccPresent (s : EngineState) (id g : Ident) : Bool :=
  match alookup s.ebs id with
  | some eb => (alookup eb.completeCollections g).isSome
  | none => false

theorem isSome_alookup_aset {α : Type} (l : List (Ident × α)) (k g : Ident) (v : α)
    (h : (alookup l g).isSome = true) : (alookup (aset l k v) g).isSome = true := by
  rw [alookup_aset]
  by_cases hg : g = k <;> simp [hg, h]

theorem ccPresent_updateEB_mono (s : EngineState) (id x g : Ident)
    (f : ExecutableBlock → ExecutableBlock)
    (hf : ∀ eb, (alookup eb.completeCollections g).isSome = true →
      (alookup (f eb).completeCollections g).isSome = true)
    (h : ccPresent s x g = true) : ccPresent (updateEB s id f) x g = true := by
  unfold updateEB
  cases heb : alookup s.ebs id with
  | none => exact h
  | some eb =>
    unfold ccPresent at h ⊢
    simp only [alookup_aset]
    by_cases hx : x = id
    · subst hx
      rw [heb] at h
      simp only [if_pos rfl]
      exact hf eb h
    · simp only [if_neg hx]
      exact h

theorem ccPresent_executeBlockIfComplete (id x g : Ident) (s : EngineState)
    (h : ccPresent s x g = true) :
    ccPresent (executeBlockIfComplete id s).2 x g = true := by
  unfold executeBlockIfComplete
  dsimp only
  split
  · exact h
  · split
    · exact h
    · split
      · show ccPresent { updateEB _ id _ with launched := _ } x g = true
        have h1 := ccPresent_updateEB_mono { s with attempts := s.attempts ++ [id] } id x g
          (fun eb => { eb with executing := true }) (fun _ hh => hh) h
        unfold ccPresent at h1 ⊢
        exact h1
      · exact h

theorem ccPresent_matchLoop_mono (ebID : Ident) :
    ∀ (l : List Ident) (s : EngineState) (x g : Ident),
      ccPresent s x g = true → ccPresent (matchLoop ebID l s).2 x g = true := by
  intro l
  induction l with
  | nil => intro s x g h; exact h
  | cons g0 gs ih =>
    intro s x g h
    unfold matchLoop
    dsimp only
    have hstep : ccPresent (updateEB s ebID (fun eb =>
        { eb with completeCollections := aset eb.completeCollections g0 ⟨g0, none⟩ }))
        x g = true :=
      ccPresent_updateEB_mono s ebID x g _
        (fun eb hh => isSome_alookup_aset _ _ _ _ hh) h
    split
    · exact ih _ x g hstep
    · dsimp only
      exact ih _ x g hstep

theorem ccPresent_bbc (s : EngineState) (bc : List (Ident × List Ident)) (x g : Ident) :
    ccPresent { s with blockByCollection := bc } x g = ccPresent s x g := rfl

/-- The heap entry of an ID stays present under `matchLoop`. -/
theorem heapSome_of_ebBlock {s t : EngineState}
    (h : ∀ y, ebBlock t y = ebBlock s y) (x : Ident)
    (hx : (alookup s.ebs x).isSome = true) : (alookup t.ebs x).isSome = true := by
  have h1 := h x
  unfold ebBlock at h1
  cases h2 : alookup t.ebs x with
  | some eb => rfl
  | none =>
    rw [h2] at h1
    cases h3 : alookup s.ebs x with
    | none => rw [h3] at hx; cases hx
    | some eb => rw [h3] at h1; cases h1

/-- `matchLoop` records a `CompleteCollection` entry for every guarantee
it walks over. -/
theorem matchLoop_sets (ebID : Ident) :
    ∀ (l : List Ident) (s : EngineState),
      (alookup s.ebs ebID).isSome = true →
      ∀ g ∈ l, ccPresent (matchLoop ebID l s).2 ebID g = true := by
  intro l
  induction l with
  | nil => intro s _ g hg; cases hg
  | cons g0 gs ih =>
    intro s hheap g hg
    have hstep : ccPresent (updateEB s ebID (fun eb =>
        { eb with completeCollections := aset eb.completeCollections g0 ⟨g0, none⟩ }))
        ebID g0 = true := by
      cases heb : alookup s.ebs ebID with
      | none => rw [heb] at hheap; cases hheap
      | some eb => simp [ccPresent, updateEB, heb, alookup_aset]
    have hheap1 : (alookup (updateEB s ebID (fun eb =>
        { eb with completeCollections := aset eb.completeCollections g0 ⟨g0, none⟩ })).ebs
        ebID).isSome = true := by
      cases heb : alookup s.ebs ebID with
      | none => rw [heb] at hheap; cases hheap
      | some eb => simp [updateEB, heb, alookup_aset]
    rcases List.mem_cons.mp hg with rfl | hmem
    · unfold matchLoop
      dsimp only
      split
      · refine ccPresent_matchLoop_mono ebID gs _ ebID g ?_
        exact hstep
      · dsimp only
        refine ccPresent_matchLoop_mono ebID gs _ ebID g ?_
        exact hstep
    · unfold matchLoop
      dsimp only
      split
      · refine ih _ ?_ g hmem
        exact hheap1
      · dsimp only
        refine ih _ ?_ g hmem
        exact hheap1

theorem matchLoop_attempts (ebID : Ident) :
    ∀ (l : List Ident) (s : EngineState), (matchLoop ebID l s).2.attempts = s.attempts := by
  intro l
  induction l with
  | nil => intro s; rfl
  | cons g gs ih =>
    intro s
    unfold matchLoop
    dsimp only
    split
    · rw [ih]
      show (updateEB s ebID _).attempts = _
      unfold updateEB
      cases alookup s.ebs ebID <;> rfl
    · dsimp only
      rw [ih]
      show (updateEB s ebID _).attempts = _
      unfold updateEB
      cases alookup s.ebs ebID <;> rfl

theorem matchAndFindMissingCollections_attempts (ebID : Ident) (s : EngineState) :
    (matchAndFindMissingCollections ebID s).2.attempts = s.attempts := by
  unfold matchAndFindMissingCollections
  split
  · rfl
  · rw [matchLoop_attempts]

theorem executeBlockIfComplete_attempts (id : Ident) (s : EngineState) :
    (executeBlockIfComplete id s).2.attempts = s.attempts ++ [id] := by
  unfold executeBlockIfComplete
  dsimp only
  split
  · rfl
  · split
    · rfl
    · split
      · show ({ updateEB { s with attempts := s.attempts ++ [id] } id _ with
            launched := _ } : EngineState).attempts = _
        unfold updateEB
        cases alookup ({ s with attempts := s.attempts ++ [id] } : EngineState).ebs id <;> rfl
      · rfl

theorem addCollLoop_attempts_mono (collID : Ident) (txs : List Nat) :
    ∀ (l : List Ident) (s : EngineState) (x : Ident),
      x ∈ s.attempts → x ∈ (addCollLoop collID txs l s).2.attempts := by
  intro l
  induction l with
  | nil => intro s x h; exact h
  | cons bid rest ih =>
    intro s x h
    unfold addCollLoop
    split
    · exact h
    · split
      · exact h
      · split
        · exact ih s x h
        · dsimp only
          refine ih _ x ?_
          rw [executeBlockIfComplete_attempts]
          refine List.mem_append_left _ ?_
          show x ∈ (updateEB s _ _).attempts
          unfold updateEB
          cases alookup s.ebs _ <;> exact h

theorem addCollectionToMempool_attempts_mono (collID : Ident) (txs : List Nat)
    (s : EngineState) (x : Ident) (h : x ∈ s.attempts) :
    x ∈ (addCollectionToMempool collID txs s).2.attempts := by
  cases hb : alookup s.blockByCollection collID with
  | none => simpa [addCollectionToMempool, hb] using h
  | some blks =>
    have h1 := addCollLoop_attempts_mono collID txs blks s x h
    cases h2 : addCollLoop collID txs blks s with
    | mk r s2 =>
      rw [h2] at h1
      simp only at h1
      cases r <;> simp only [addCollectionToMempool, hb, h2] <;> exact h1

theorem fetchAndHandleCollection_attempts_mono (env : Env) :
    ∀ (l : List Ident) (s : EngineState) (x : Ident),
      x ∈ s.attempts → x ∈ (fetchAndHandleCollection env l s).2.attempts := by
  intro l
  induction l with
  | nil => intro s x h; exact h
  | cons g gs ih =>
    intro s x h
    cases hc : alookup s.collStore g with
    | none =>
      cases hg : env.guarantors g with
      | none => simpa [fetchAndHandleCollection, hc, hg] using h
      | some _ =>
        simp only [fetchAndHandleCollection, hc, hg]
        exact ih _ x h
    | some cl =>
      cases cl with
      | exception => simpa [fetchAndHandleCollection, hc] using h
      | ok txs =>
        have h1 := addCollectionToMempool_attempts_mono g txs s x h
        cases h2 : addCollectionToMempool g txs s with
        | mk r s2 =>
          rw [h2] at h1
          simp only at h1
          cases r <;> simp only [fetchAndHandleCollection, hc, h2] <;>
            first
              | exact h1
              | exact ih _ x h1

theorem missingLoop_attempts_mono (env : Env) :
    ∀ (l : List (Ident × List Ident)) (s : EngineState) (x : Ident),
      x ∈ s.attempts → x ∈ (missingLoop env l s).2.attempts := by
  intro l
  induction l with
  | nil => intro s x h; exact h
  | cons p rest ih =>
    intro s x h
    obtain ⟨qid, missing⟩ := p
    have h1 := fetchAndHandleCollection_attempts_mono env missing s x h
    cases h2 : addOrFetch env missing s with
    | mk r s2 =>
      rw [show addOrFetch env missing s = fetchAndHandleCollection env missing s from rfl]
        at h2
      rw [h2] at h1
      simp only at h1
      cases r <;> simp only [missingLoop, addOrFetch, h2] <;>
        first
          | exact h1
          | exact ih _ x h1

theorem addCollLoop_ebStart (collID : Ident) (txs : List Nat) :
    ∀ (l : List Ident) (s : EngineState) (x : Ident),
      ebStart (addCollLoop collID txs l s).2 x = ebStart s x := by
  intro l
  induction l with
  | nil => intro s x; rfl
  | cons bid rest ih =>
    intro s x
    unfold addCollLoop
    split
    · rfl
    · split
      · rfl
      · split
        · exact ih s x
        · dsimp only
          rw [ih, executeBlockIfComplete_ebStart]
          refine ebStart_updateEB _ _ _ ?_ x
          intro eb
          rfl

theorem addCollectionToMempool_ebStart (collID : Ident) (txs : List Nat)
    (s : EngineState) (x : Ident) :
    ebStart (addCollectionToMempool collID txs s).2 x = ebStart s x := by
  cases hb : alookup s.blockByCollection collID with
  | none => simp [addCollectionToMempool, hb]
  | some blks =>
    have h1 := addCollLoop_ebStart collID txs blks s x
    cases h2 : addCollLoop collID txs blks s with
    | mk r s2 =>
      rw [h2] at h1
      simp only at h1
      cases r <;> simp only [addCollectionToMempool, hb, h2] <;> exact h1

theorem fetchAndHandleCollection_ebStart (env : Env) :
    ∀ (l : List Ident) (s : EngineState) (x : Ident),
      ebStart (fetchAndHandleCollection env l s).2 x = ebStart s x := by
  intro l
  induction l with
  | nil => intro s x; rfl
  | cons g gs ih =>
    intro s x
    cases hc : alookup s.collStore g with
    | none =>
      cases hg : env.guarantors g with
      | none => simp [fetchAndHandleCollection, hc, hg]
      | some _ =>
        simp only [fetchAndHandleCollection, hc, hg]
        rw [ih]
        rfl
    | some cl =>
      cases cl with
      | exception => simp [fetchAndHandleCollection, hc]
      | ok txs =>
        have h1 := addCollectionToMempool_ebStart g txs s x
        cases h2 : addCollectionToMempool g txs s with
        | mk r s2 =>
          rw [h2] at h1
          simp only at h1
          cases r <;> simp only [fetchAndHandleCollection, hc, h2] <;>
            first
              | exact h1
              | rw [ih]; exact h1

theorem missingLoop_ebStart (env : Env) :
    ∀ (l : List (Ident × List Ident)) (s : EngineState) (x : Ident),
      ebStart (missingLoop env l s).2 x = ebStart s x := by
  intro l
  induction l with
  | nil => intro s x; rfl
  | cons p rest ih =>
    intro s x
    obtain ⟨qid, missing⟩ := p
    have h1 := fetchAndHandleCollection_ebStart env missing s x
    cases h2 : addOrFetch env missing s with
    | mk r s2 =>
      rw [show addOrFetch env missing s = fetchAndHandleCollection env missing s from rfl]
        at h2
      rw [h2] at h1
      simp only at h1
      cases r <;> simp only [missingLoop, addOrFetch, h2] <;>
        first
          | exact h1
          | rw [ih]; exact h1

theorem ccPresent_addCollLoop_mono (collID : Ident) (txs : List Nat) :
    ∀ (l : List Ident) (s : EngineState) (x g : Ident),
      ccPresent s x g = true → ccPresent (addCollLoop collID txs l s).2 x g = true := by
  intro l
  induction l with
  | nil => intro s x g h; exact h
  | cons bid rest ih =>
    intro s x g h
    unfold addCollLoop
    split
    · exact h
    · split
      · exact h
      · split
        · exact ih s x g h
        · dsimp only
          refine ih _ x g ?_
          refine ccPresent_executeBlockIfComplete _ x g _ ?_
          refine ccPresent_updateEB_mono s _ x g _ ?_ h
          intro eb hh
          exact isSome_alookup_aset _ _ _ _ hh

theorem ccPresent_addCollectionToMempool_mono (collID : Ident) (txs : List Nat)
    (s : EngineState) (x g : Ident) (h : ccPresent s x g = true) :
    ccPresent (addCollectionToMempool collID txs s).2 x g = true := by
  cases hb : alookup s.blockByCollection collID with
  | none => simpa [addCollectionToMempool, hb] using h
  | some blks =>
    have h1 := ccPresent_addCollLoop_mono collID txs blks s x g h
    cases h2 : addCollLoop collID txs blks s with
    | mk r s2 =>
      rw [h2] at h1
      simp only at h1
      cases r <;> simp only [addCollectionToMempool, hb, h2] <;> exact h1

theorem ccPresent_fetchAndHandleCollection_mono (env : Env) :
    ∀ (l : List Ident) (s : EngineState) (x g : Ident),
      ccPresent s x g = true →
      ccPresent (fetchAndHandleCollection env l s).2 x g = true := by
  intro l
  induction l with
  | nil => intro s x g h; exact h
  | cons g0 gs ih =>
    intro s x g h
    cases hc : alookup s.collStore g0 with
    | none =>
      cases hg : env.guarantors g0 with
      | none => simpa [fetchAndHandleCollection, hc, hg] using h
      | some _ =>
        simp only [fetchAndHandleCollection, hc, hg]
        exact ih _ x g h
    | some cl =>
      cases cl with
      | exception => simpa [fetchAndHandleCollection, hc] using h
      | ok txs =>
        have h1 := ccPresent_addCollectionToMempool_mono g0 txs s x g h
        cases h2 : addCollectionToMempool g0 txs s with
        | mk r s2 =>
          rw [h2] at h1
          simp only at h1
          cases r <;> simp only [fetchAndHandleCollection, hc, h2] <;>
            first
              | exact h1
              | exact ih _ x g h1

theorem ccPresent_missingLoop_mono (env : Env) :
    ∀ (l : List (Ident × List Ident)) (s : EngineState) (x g : Ident),
      ccPresent s x g = true → ccPresent (missingLoop env l s).2 x g = true := by
  intro l
  induction l with
  | nil => intro s x g h; exact h
  | cons p rest ih =>
    intro s x g h
    obtain ⟨qid, missing⟩ := p
    have h1 := ccPresent_fetchAndHandleCollection_mono env missing s x g h
    cases h2 : addOrFetch env missing s with
    | mk r s2 =>
      rw [show addOrFetch env missing s = fetchAndHandleCollection env missing s from rfl]
        at h2
      rw [h2] at h1
      simp only at h1
      cases r <;> simp only [missingLoop, addOrFetch, h2] <;>
        first
          | exact h1
          | exact ih _ x g h1

theorem updateEB_attempts (s : EngineState) (id : Ident)
    (f : ExecutableBlock → ExecutableBlock) : (updateEB s id f).attempts = s.attempts := by
  unfold updateEB
  cases alookup s.ebs id <;> rfl

theorem ebStart_updateEB_ne (s : EngineState) (id x : Ident)
    (f : ExecutableBlock → ExecutableBlock) (hx : x ≠ id) :
    ebStart (updateEB s id f) x = ebStart s x := by
  unfold updateEB
  cases h : alookup s.ebs id with
  | none => rfl
  | some eb =>
    unfold ebStart
    simp only [alookup_aset, if_neg hx]

theorem ebStart_updateEB_set (s : EngineState) (id : Ident) (v : Option Ident)
    (h : (alookup s.ebs id).isSome = true) :
    ebStart (updateEB s id (fun eb => { eb with startState := v })) id = some v := by
  unfold updateEB
  cases heb : alookup s.ebs id with
  | none => rw [heb] at h; cases h
  | some eb =>
    unfold ebStart
    simp [alookup_aset]

theorem ccPresent_matchAndFind_mono (ebID : Ident) (s : EngineState) (x g : Ident)
    (h : ccPresent s x g = true) :
    ccPresent (matchAndFindMissingCollections ebID s).2 x g = true := by
  unfold matchAndFindMissingCollections
  split
  · exact h
  · exact ccPresent_matchLoop_mono ebID _ s x g h

/-- Full specification of the child-promotion loop when no child
conflicts with an existing queue: it succeeds, appends each child as its
own queue, sets every child's `StartState` to the parent's end state,
reruns collection matching (every guarantee has a fresh
`CompleteCollection` entry), and attempts `TryExecute` on every child
(ghost attempts log), while preserving everything it does not touch. -/
theorem childLoop_spec (finalState : Ident) :
    ∀ (cs : List QTree) (s : EngineState),
      (∀ c ∈ cs, hasRoot s.queues c.rootID = false) →
      (cs.map QTree.rootID).Nodup →
      (∀ c ∈ cs, (alookup s.ebs c.rootID).isSome = true) →
      (childLoop finalState cs s).1 = Res.ok () ∧
      (childLoop finalState cs s).2.2.queues = s.queues ++ cs ∧
      (∀ x, x ∈ s.attempts → x ∈ (childLoop finalState cs s).2.2.attempts) ∧
      (∀ x g, ccPresent s x g = true →
        ccPresent (childLoop finalState cs s).2.2 x g = true) ∧
      (∀ x, x ∉ cs.map QTree.rootID →
        ebStart (childLoop finalState cs s).2.2 x = ebStart s x) ∧
      (∀ x, ebBlock (childLoop finalState cs s).2.2 x = ebBlock s x) ∧
      (∀ c ∈ cs,
        ebStart (childLoop finalState cs s).2.2 c.rootID = some (some finalState) ∧
        c.rootID ∈ (childLoop finalState cs s).2.2.attempts ∧
        (∀ eb0, alookup s.ebs c.rootID = some eb0 →
          ∀ g ∈ eb0.block.guarantees,
            ccPresent (childLoop finalState cs s).2.2 c.rootID g = true)) := by
  intro cs
  induction cs with
  | nil =>
    intro s _ _ _
    refine ⟨rfl, by simp [childLoop], fun x h => h, fun x g h => h,
      fun x _ => rfl, fun x => rfl, ?_⟩
    intro c hc
    cases hc
  | cons c rest ih =>
    intro s hfresh hnodup hheap
    have hc : hasRoot s.queues c.rootID = false := hfresh c (List.mem_cons_self _ _)
    have hnodups : QTree.rootID c ∉ rest.map QTree.rootID ∧
        (rest.map QTree.rootID).Nodup := by
      rw [List.map_cons] at hnodup
      exact List.nodup_cons.mp hnodup
    have hcnotin : c.rootID ∉ rest.map QTree.rootID := hnodups.1
    have hnodup' : (rest.map QTree.rootID).Nodup := hnodups.2
    cases hm : matchAndFindMissingCollections c.rootID
        (updateEB { s with queues := s.queues ++ [c] } c.rootID
          (fun eb => { eb with startState := some finalState })) with
    | mk missing s3 =>
      cases hx : executeBlockIfComplete c.rootID s3 with
      | mk b4 s4 =>
        cases hcl : childLoop finalState rest s4 with
        | mk r rest5 =>
          cases rest5 with
          | mk ms s5 =>
            have hred : childLoop finalState (c :: rest) s =
                (r, (if missing.isEmpty then ms else (c.rootID, missing) :: ms), s5) := by
              simp only [childLoop, if_neg (by simp [hc] : ¬hasRoot s.queues c.rootID = true),
                hm, hx, hcl]
            have hq2 : (updateEB { s with queues := s.queues ++ [c] } c.rootID
                (fun eb => { eb with startState := some finalState })).queues
                = s.queues ++ [c] := by
              rw [updateEB_queues]
            have hq3 : s3.queues = s.queues ++ [c] := by
              have h1 := matchAndFindMissingCollections_queues c.rootID
                (updateEB { s with queues := s.queues ++ [c] } c.rootID
                  (fun eb => { eb with startState := some finalState }))
              rw [hm] at h1
              simp only at h1
              rw [h1, hq2]
            have hq4 : s4.queues = s.queues ++ [c] := by
              have h1 := executeBlockIfComplete_queues c.rootID s3
              rw [hx] at h1
              simp only at h1
              rw [h1, hq3]
            have hatt3 : s3.attempts = s.attempts := by
              have h1 := matchAndFindMissingCollections_attempts c.rootID
                (updateEB { s with queues := s.queues ++ [c] } c.rootID
                  (fun eb => { eb with startState := some finalState }))
              rw [hm] at h1
              simp only at h1
              rw [h1, updateEB_attempts]
            have hatt4 : s4.attempts = s.attempts ++ [c.rootID] := by
              have h1 := executeBlockIfComplete_attempts c.rootID s3
              rw [hx] at h1
              simp only at h1
              rw [h1, hatt3]
            have hebB4 : ∀ x, ebBlock s4 x = ebBlock s x := by
              intro x
              have h1 := executeBlockIfComplete_ebBlock c.rootID s3 x
              rw [hx] at h1
              simp only at h1
              have h2 := matchAndFindMissingCollections_ebBlock c.rootID
                (updateEB { s with queues := s.queues ++ [c] } c.rootID
                  (fun eb => { eb with startState := some finalState })) x
              rw [hm] at h2
              simp only at h2
              rw [h1, h2]
              refine Eq.trans (ebBlock_updateEB _ _ _ ?_ x) rfl
              intro eb
              rfl
            have hstart4c : ebStart s4 c.rootID = some (some finalState) := by
              have h1 := executeBlockIfComplete_ebStart c.rootID s3 c.rootID
              rw [hx] at h1
              simp only at h1
              have h2 := matchAndFindMissingCollections_ebStart c.rootID
                (updateEB { s with queues := s.queues ++ [c] } c.rootID
                  (fun eb => { eb with startState := some finalState })) c.rootID
              rw [hm] at h2
              simp only at h2
              rw [h1, h2]
              exact ebStart_updateEB_set _ _ _ (hheap c (List.mem_cons_self _ _))
            have hstartOff4 : ∀ x, x ≠ c.rootID → ebStart s4 x = ebStart s x := by
              intro x hxne
              have h1 := executeBlockIfComplete_ebStart c.rootID s3 x
              rw [hx] at h1
              simp only at h1
              have h2 := matchAndFindMissingCollections_ebStart c.rootID
                (updateEB { s with queues := s.queues ++ [c] } c.rootID
                  (fun eb => { eb with startState := some finalState })) x
              rw [hm] at h2
              simp only at h2
              rw [h1, h2, ebStart_updateEB_ne _ _ _ _ hxne]
              rfl
            have hccMono4 : ∀ x g, ccPresent s x g = true →
                ccPresent s4 x g = true := by
              intro x g h
              have h1 : ccPresent (updateEB { s with queues := s.queues ++ [c] } c.rootID
                  (fun eb => { eb with startState := some finalState })) x g = true := by
                refine ccPresent_updateEB_mono _ _ x g _ (fun eb hh => hh) ?_
                exact h
              have h2 := ccPresent_matchAndFind_mono c.rootID
                (updateEB { s with queues := s.queues ++ [c] } c.rootID
                  (fun eb => { eb with startState := some finalState })) x g h1
              rw [hm] at h2
              simp only at h2
              have h3 := ccPresent_executeBlockIfComplete c.rootID x g s3 h2
              rw [hx] at h3
              exact h3
            have hccSet4 : ∀ eb0, alookup s.ebs c.rootID = some eb0 →
                ∀ g ∈ eb0.block.guarantees, ccPresent s4 c.rootID g = true := by
              intro eb0 heb0 g hg
              have hlook2 : alookup (updateEB { s with queues := s.queues ++ [c] }
                  c.rootID (fun eb => { eb with startState := some finalState })).ebs
                  c.rootID = some { eb0 with startState := some finalState } := by
                unfold updateEB
                rw [show alookup ({ s with queues := s.queues ++ [c] } :
                    EngineState).ebs c.rootID = some eb0 from heb0]
                show alookup (aset _ c.rootID _) c.rootID = _
                rw [alookup_aset, if_pos rfl]
              have hm2 : matchLoop c.rootID eb0.block.guarantees
                  (updateEB { s with queues := s.queues ++ [c] } c.rootID
                    (fun eb => { eb with startState := some finalState }))
                  = (missing, s3) := by
                rw [← hm]
                unfold matchAndFindMissingCollections
                rw [hlook2]
              have hsets := matchLoop_sets c.rootID eb0.block.guarantees
                (updateEB { s with queues := s.queues ++ [c] } c.rootID
                  (fun eb => { eb with startState := some finalState }))
                (by rw [hlook2]; rfl) g hg
              rw [hm2] at hsets
              simp only at hsets
              have h3 := ccPresent_executeBlockIfComplete c.rootID c.rootID g s3 hsets
              rw [hx] at h3
              exact h3
            have hfresh4 : ∀ c' ∈ rest, hasRoot s4.queues c'.rootID = false := by
              intro c' hc'
              rw [hq4, hasRoot_append]
              have h1 : hasRoot s.queues c'.rootID = false :=
                hfresh c' (List.mem_cons_of_mem _ hc')
              have h2 : (c.rootID == c'.rootID) = false := by
                rw [beq_eq_false_iff_ne]
                intro heq
                exact hcnotin (heq ▸ List.mem_map_of_mem QTree.rootID hc')
              rw [h1, h2]
              rfl
            have hheap4 : ∀ c' ∈ rest, (alookup s4.ebs c'.rootID).isSome = true := by
              intro c' hc'
              exact heapSome_of_ebBlock hebB4 c'.rootID
                (hheap c' (List.mem_cons_of_mem _ hc'))
            obtain ⟨ihr, ihq, ihatt, ihcc, ihoff, ihebB, ihch⟩ :=
              ih s4 hfresh4 hnodup' hheap4
            rw [hcl] at ihr ihq ihatt ihcc ihoff ihebB ihch
            simp only at ihr ihq ihatt ihcc ihoff ihebB ihch
            rw [hred]
            refine ⟨ihr, ?_, ?_, ?_, ?_, ?_, ?_⟩
            · show s5.queues = s.queues ++ (c :: rest)
              rw [ihq, hq4, List.append_assoc, List.singleton_append]
            · intro x hx0
              refine ihatt x ?_
              rw [hatt4]
              exact List.mem_append_left _ hx0
            · intro x g h
              exact ihcc x g (hccMono4 x g h)
            · intro x hxnot
              have hx1 : x ∉ rest.map QTree.rootID := by
                intro hmem
                exact hxnot (by simpa using List.mem_cons_of_mem _ hmem)
              have hx2 : x ≠ c.rootID := by
                intro heq
                exact hxnot (by simp [heq])
              rw [ihoff x hx1, hstartOff4 x hx2]
            · intro x
              rw [ihebB x, hebB4 x]
            · intro c' hc'
              rcases List.mem_cons.mp hc' with rfl | hmem
              · refine ⟨?_, ?_, ?_⟩
                · rw [ihoff c'.rootID hcnotin, hstart4c]
                · refine ihatt c'.rootID ?_
                  rw [hatt4]
                  exact List.mem_append_right _ (List.mem_singleton.mpr rfl)
                · intro eb0 heb0 g hg
                  exact ihcc c'.rootID g (hccSet4 eb0 heb0 g hg)
              · obtain ⟨ihs, iha, ihg⟩ := ihch c' hmem
                refine ⟨ihs, iha, ?_⟩
                intro eb0 heb0 g hg
                have hb4 : ebBlock s4 c'.rootID = some eb0.block := by
                  rw [hebB4]
                  unfold ebBlock
                  rw [heb0]
                  rfl
                cases heb4 : alookup s4.ebs c'.rootID with
                | none =>
                  unfold ebBlock at hb4
                  rw [heb4] at hb4
                  cases hb4
                | some eb4 =>
                  have hblk : eb4.block = eb0.block := by
                    unfold ebBlock at hb4
                    rw [heb4] at hb4
                    simpa using hb4
                  exact ihg eb4 heb4 g (by rw [hblk]; exact hg)

theorem queuesRemove_append_of_found :
    ∀ (qs cs : List QTree) (x : Ident), (∃ q, findQueue qs x = some q) →
      queuesRemove (qs ++ cs) x = queuesRemove qs x ++ cs := by
  intro qs
  induction qs with
  | nil =>
    intro cs x h
    rcases h with ⟨q, hq⟩
    cases hq
  | cons q qs' ih =>
    intro cs x h
    by_cases hr : q.rootID = x
    · simp [queuesRemove, hr]
    · rcases h with ⟨q0, hq0⟩
      rw [findQueue, if_neg hr] at hq0
      simp only [List.cons_append, queuesRemove, if_neg hr, List.append_eq]
      rw [ih cs x ⟨q0, hq0⟩]

theorem missingLoop_queues (env : Env) :
    ∀ (l : List (Ident × List Ident)) (s : EngineState),
      (missingLoop env l s).2.queues = s.queues := by
  intro l
  induction l with
  | nil => intro s; rfl
  | cons p rest ih =>
    intro s
    obtain ⟨qid, missing⟩ := p
    have h1 := fetchAndHandleCollection_queues env missing s
    cases h2 : addOrFetch env missing s with
    | mk r s2 =>
      rw [show addOrFetch env missing s = fetchAndHandleCollection env missing s from rfl]
        at h2
      rw [h2] at h1
      simp only at h1
      cases r <;> simp only [missingLoop, addOrFetch, h2] <;>
        first
          | exact h1
          | rw [ih]; exact h1

/-- C6: after `OnExecuted(B, endState)`, the queue headed by B is
dismounted: each child of B becomes the root of its own new queue, B's
queue is removed from the queue set, and every child has its
`StartState` set to `endState`, has collection matching rerun (a fresh
`CompleteCollection` entry exists for each of its guarantees), and has
`TryExecute` attempted on it (ghost attempts log). -/
theorem onExecuted_promotes_children (env : Env) (executedID finalState : Ident)
    (s : EngineState) (children : List QTree)
    (hfind : findQueue s.queues executedID = some (QTree.node executedID children))
    (hfresh : ∀ c ∈ children, hasRoot s.queues c.rootID = false)
    (hnodup : (children.map QTree.rootID).Nodup)
    (hheap : ∀ c ∈ children, (alookup s.ebs c.rootID).isSome = true) :
    (onBlockExecuted env executedID finalState s).2.queues
      = queuesRemove s.queues executedID ++ children ∧
    (∀ c ∈ children,
      ebStart (onBlockExecuted env executedID finalState s).2 c.rootID
        = some (some finalState) ∧
      c.rootID ∈ (onBlockExecuted env executedID finalState s).2.attempts ∧
      (∀ eb0, alookup s.ebs c.rootID = some eb0 →
        ∀ g ∈ eb0.block.guarantees,
          ccPresent (onBlockExecuted env executedID finalState s).2 c.rootID g
            = true)) := by
  obtain ⟨ihr, ihq, ihatt, ihcc, ihoff, ihebB, ihch⟩ :=
    childLoop_spec finalState children s hfresh hnodup hheap
  cases hcl : childLoop finalState children s with
  | mk r rest5 =>
    cases rest5 with
    | mk ms s5 =>
      rw [hcl] at ihr ihq ihatt ihcc ihoff ihebB ihch
      simp only at ihr ihq ihatt ihcc ihoff ihebB ihch
      subst ihr
      have hrun : onBlockExecutedRun executedID finalState s =
          (.ok (), ms, { s5 with queues := queuesRemove s5.queues executedID }) := by
        simp only [onBlockExecutedRun, hfind, hcl]
      have hremove : queuesRemove s5.queues executedID
          = queuesRemove s.queues executedID ++ children := by
        rw [ihq]
        exact queuesRemove_append_of_found s.queues children executedID
          ⟨_, hfind⟩
      have hbe : onBlockExecuted env executedID finalState s =
          missingLoop env ms { s5 with queues := queuesRemove s5.queues executedID } := by
        unfold onBlockExecuted
        rw [hrun]
      constructor
      · rw [hbe, missingLoop_queues]
        show queuesRemove s5.queues executedID = _
        exact hremove
      · intro c hc
        obtain ⟨ihs, iha, ihg⟩ := ihch c hc
        refine ⟨?_, ?_, ?_⟩
        · rw [hbe, missingLoop_ebStart]
          exact ihs
        · rw [hbe]
          exact missingLoop_attempts_mono env ms _ c.rootID iha
        · intro eb0 heb0 g hg
          rw [hbe]
          exact ccPresent_missingLoop_mono env ms _ c.rootID g (ihg eb0 heb0 g hg)

/-- A state whose queue forest holds the executed block 1 with two
children 2 and 3, both present in the heap. -/
def sW6 : EngineState :=
  { queues := [QTree.node 1 [QTree.node 2 [], QTree.node 3 []]]
    ebs := [(1, ⟨⟨1, 0, 1, []⟩, [], some 6, true⟩),
            (2, ⟨⟨2, 1, 2, [5]⟩, [(5, ⟨5, none⟩)], none, false⟩),
            (3, ⟨⟨3, 1, 2, []⟩, [], none, false⟩)]
    blockByCollection := [(5, [2])]
    collStore := []
    es := esW0
    requested := []
    launched := []
    attempts := [] }

/-- Witness for `onExecuted_promotes_children` on `sW6`. -/
theorem onExecuted_promotes_children_witness :
    (onBlockExecuted envW 1 7 sW6).2.queues
      = queuesRemove sW6.queues 1 ++ [QTree.node 2 [], QTree.node 3 []] ∧
    (∀ c ∈ [QTree.node 2 [], QTree.node 3 []],
      ebStart (onBlockExecuted envW 1 7 sW6).2 c.rootID = some (some 7) ∧
      c.rootID ∈ (onBlockExecuted envW 1 7 sW6).2.attempts ∧
      (∀ eb0, alookup sW6.ebs c.rootID = some eb0 →
        ∀ g ∈ eb0.block.guarantees,
          ccPresent (onBlockExecuted envW 1 7 sW6).2 c.rootID g = true)) :=
  onExecuted_promotes_children envW 1 7 sW6 [QTree.node 2 [], QTree.node 3 []]
    rfl (by decide) (by decide) (by decide)

/-! ## The collection matcher/fetcher pipeline -/

/-- The transactions recorded on a block's `CompleteCollection` entry
for a guarantee (`some none` = entry allocated, transactions nil). -/
def ccTrans (s : EngineState) (id g : Ident) : Option (Option (List Nat)) :=
  match alookup s.ebs id with
  | some eb => (alookup eb.completeCollections g).map CompleteCollection.transactions
  | none => none

theorem ccTrans_updateEB_other (s : EngineState) (id x g : Ident)
    (f : ExecutableBlock → ExecutableBlock) (hx : x ≠ id) :
    ccTrans (updateEB s id f) x g = ccTrans s x g := by
  unfold updateEB
  cases h : alookup s.ebs id with
  | none => rfl
  | some eb =>
    unfold ccTrans
    simp only [alookup_aset, if_neg hx]

theorem ccTrans_updateEB_ccpres (s : EngineState) (id x g : Ident)
    (f : ExecutableBlock → ExecutableBlock)
    (hf : ∀ eb, (f eb).completeCollections = eb.completeCollections) :
    ccTrans (updateEB s id f) x g = ccTrans s x g := by
  unfold updateEB
  cases h : alookup s.ebs id with
  | none => rfl
  | some eb =>
    unfold ccTrans
    simp only [alookup_aset]
    by_cases hx : x = id
    · subst hx
      simp [h, hf]
    · simp [hx]

theorem ccTrans_updateEB_aset_ne (s : EngineState) (id x g k : Ident)
    (v : CompleteCollection) (hgk : g ≠ k) :
    ccTrans (updateEB s id (fun eb =>
      { eb with completeCollections := aset eb.completeCollections k v })) x g
      = ccTrans s x g := by
  by_cases hx : x = id
  · subst hx
    unfold updateEB
    cases h : alookup s.ebs x with
    | none => rfl
    | some eb =>
      unfold ccTrans
      simp [alookup_aset, h, hgk]
  · exact ccTrans_updateEB_other s id x g _ hx

theorem ccTrans_executeBlockIfComplete (id x g : Ident) (s : EngineState) :
    ccTrans (executeBlockIfComplete id s).2 x g = ccTrans s x g := by
  unfold executeBlockIfComplete
  dsimp only
  split
  · rfl
  · split
    · rfl
    · split
      · show ccTrans { updateEB _ id _ with launched := _ } x g = _
        have h1 : ccTrans (updateEB { s with attempts := s.attempts ++ [id] } id
            (fun eb => { eb with executing := true })) x g
            = ccTrans { s with attempts := s.attempts ++ [id] } x g := by
          refine ccTrans_updateEB_ccpres _ _ _ _ _ ?_
          intro eb
          rfl
        unfold ccTrans at h1 ⊢
        simpa using h1
      · rfl

theorem ccTrans_matchLoop_ne (ebID : Ident) :
    ∀ (l : List Ident) (s : EngineState) (x g : Ident), g ∉ l →
      ccTrans (matchLoop ebID l s).2 x g = ccTrans s x g := by
  intro l
  induction l with
  | nil => intro s x g _; rfl
  | cons g0 gs ih =>
    intro s x g hg
    have hgne : g ≠ g0 := fun h => hg (h ▸ List.mem_cons_self _ _)
    have hgrest : g ∉ gs := fun h => hg (List.mem_cons_of_mem _ h)
    unfold matchLoop
    dsimp only
    split
    · rw [ih _ x g hgrest]
      show ccTrans (updateEB s ebID _) x g = _
      exact ccTrans_updateEB_aset_ne s ebID x g g0 ⟨g0, none⟩ hgne
    · dsimp only
      rw [ih _ x g hgrest]
      show ccTrans (updateEB s ebID _) x g = _
      exact ccTrans_updateEB_aset_ne s ebID x g g0 ⟨g0, none⟩ hgne

theorem ccTrans_updateEB_aset_self (s : EngineState) (ebID g : Ident)
    (v : CompleteCollection)
    (hheap : (alookup s.ebs ebID).isSome = true) :
    ccTrans (updateEB s ebID (fun eb =>
      { eb with completeCollections := aset eb.completeCollections g v })) ebID g
      = some v.transactions := by
  unfold updateEB
  cases h : alookup s.ebs ebID with
  | none => rw [h] at hheap; cases hheap
  | some eb =>
    unfold ccTrans
    simp [alookup_aset, h]

theorem updateEB_bbc (s : EngineState) (id : Ident)
    (f : ExecutableBlock → ExecutableBlock) :
    (updateEB s id f).blockByCollection = s.blockByCollection := by
  unfold updateEB
  cases alookup s.ebs id <;> rfl

theorem updateEB_collStore (s : EngineState) (id : Ident)
    (f : ExecutableBlock → ExecutableBlock) :
    (updateEB s id f).collStore = s.collStore := by
  unfold updateEB
  cases alookup s.ebs id <;> rfl

theorem updateEB_requested (s : EngineState) (id : Ident)
    (f : ExecutableBlock → ExecutableBlock) :
    (updateEB s id f).requested = s.requested := by
  unfold updateEB
  cases alookup s.ebs id <;> rfl

theorem matchLoop_collStore (ebID : Ident) :
    ∀ (l : List Ident) (s : EngineState), (matchLoop ebID l s).2.collStore = s.collStore := by
  intro l
  induction l with
  | nil => intro s; rfl
  | cons g gs ih =>
    intro s
    unfold matchLoop
    dsimp only
    split
    · rw [ih]
      show (updateEB s ebID _).collStore = _
      rw [updateEB_collStore]
    · dsimp only
      rw [ih]
      show (updateEB s ebID _).collStore = _
      rw [updateEB_collStore]

theorem matchLoop_requested (ebID : Ident) :
    ∀ (l : List Ident) (s : EngineState), (matchLoop ebID l s).2.requested = s.requested := by
  intro l
  induction l with
  | nil => intro s; rfl
  | cons g gs ih =>
    intro s
    unfold matchLoop
    dsimp only
    split
    · rw [ih]
      show (updateEB s ebID _).requested = _
      rw [updateEB_requested]
    · dsimp only
      rw [ih]
      show (updateEB s ebID _).requested = _
      rw [updateEB_requested]

theorem matchLoop_bbc_ne (ebID : Ident) :
    ∀ (l : List Ident) (s : EngineState) (x : Ident), x ∉ l →
      alookup (matchLoop ebID l s).2.blockByCollection x
        = alookup s.blockByCollection x := by
  intro l
  induction l with
  | nil => intro s x _; rfl
  | cons g0 gs ih =>
    intro s x hx
    have hxg0 : x ≠ g0 := fun h => hx (h ▸ List.mem_cons_self _ _)
    have hxgs : x ∉ gs := fun h => hx (List.mem_cons_of_mem _ h)
    unfold matchLoop
    dsimp only
    split
    · rw [ih _ x hxgs]
      show alookup ({ updateEB s ebID _ with blockByCollection := _ } :
        EngineState).blockByCollection x = _
      dsimp only
      rw [alookup_aset, if_neg hxg0, updateEB_bbc]
    · dsimp only
      rw [ih _ x hxgs]
      show alookup ({ updateEB s ebID _ with blockByCollection := _ } :
        EngineState).blockByCollection x = _
      dsimp only
      rw [alookup_aset, if_neg hxg0, updateEB_bbc]

/-- Analysis of the matcher loop: exactly the guarantees with no
existing reverse-index entry are reported missing, each such guarantee
gets a fresh singleton reverse-index entry, and every walked guarantee
gets a `CompleteCollection` entry with nil transactions. -/
theorem matchLoop_analysis (ebID : Ident) :
    ∀ (l : List Ident) (s : EngineState),
      (alookup s.ebs ebID).isSome = true → l.Nodup →
      (matchLoop ebID l s).1
          = l.filter (fun g => (alookup s.blockByCollection g).isNone) ∧
      (∀ g ∈ l, (alookup s.blockByCollection g).isNone = true →
        alookup (matchLoop ebID l s).2.blockByCollection g = some [ebID]) ∧
      (∀ g ∈ l, ccTrans (matchLoop ebID l s).2 ebID g = some none) := by
  intro l
  induction l with
  | nil =>
    intro s _ _
    refine ⟨rfl, ?_, ?_⟩ <;> intro g hg <;> cases hg
  | cons g0 gs ih =>
    intro s hheap hnodup
    obtain ⟨hg0notin, hnodup'⟩ := List.nodup_cons.mp hnodup
    have hheap_upd : (alookup (updateEB s ebID (fun eb => { eb with completeCollections := aset eb.completeCollections g0 ⟨g0, none⟩ })).ebs ebID).isSome = true := by
      unfold updateEB
      cases h : alookup s.ebs ebID with
      | none => rw [h] at hheap; cases hheap
      | some eb => simp [alookup_aset]
    have hccset : ∀ (t : EngineState), t.ebs = (updateEB s ebID (fun eb => { eb with completeCollections := aset eb.completeCollections g0 ⟨g0, none⟩ })).ebs →
        ccTrans t ebID g0 = some none := by
      intro t ht
      have h1 : ccTrans t ebID g0 = ccTrans (updateEB s ebID (fun eb => { eb with completeCollections := aset eb.completeCollections g0 ⟨g0, none⟩ })) ebID g0 := by
        unfold ccTrans
        rw [ht]
      rw [h1]
      exact ccTrans_updateEB_aset_self s ebID g0 ⟨g0, none⟩ hheap
    cases hbc : alookup (updateEB s ebID (fun eb => { eb with completeCollections := aset eb.completeCollections g0 ⟨g0, none⟩ })).blockByCollection g0 with
    | some blks =>
      have hbc0 : alookup s.blockByCollection g0 = some blks := by
        rw [← hbc, updateEB_bbc]
      have hred : matchLoop ebID (g0 :: gs) s = matchLoop ebID gs { updateEB s ebID (fun eb => { eb with completeCollections := aset eb.completeCollections g0 ⟨g0, none⟩ }) with blockByCollection := aset (updateEB s ebID (fun eb => { eb with completeCollections := aset eb.completeCollections g0 ⟨g0, none⟩ })).blockByCollection g0 (if ebID ∈ blks then blks else blks ++ [ebID]) } := by
        simp only [matchLoop, hbc]
      have hbbc_eq : ∀ g ∈ gs, alookup ({ updateEB s ebID (fun eb => { eb with completeCollections := aset eb.completeCollections g0 ⟨g0, none⟩ }) with blockByCollection := aset (updateEB s ebID (fun eb => { eb with completeCollections := aset eb.completeCollections g0 ⟨g0, none⟩ })).blockByCollection g0 (if ebID ∈ blks then blks else blks ++ [ebID]) } :
          EngineState).blockByCollection g = alookup s.blockByCollection g := by
        intro g hg
        have hne : g ≠ g0 := fun h => hg0notin (h ▸ hg)
        show alookup (aset _ g0 _) g = _
        rw [alookup_aset, if_neg hne, updateEB_bbc]
      obtain ⟨ih1, ih2, ih3⟩ := ih ({ updateEB s ebID (fun eb => { eb with completeCollections := aset eb.completeCollections g0 ⟨g0, none⟩ }) with blockByCollection := aset (updateEB s ebID (fun eb => { eb with completeCollections := aset eb.completeCollections g0 ⟨g0, none⟩ })).blockByCollection g0 (if ebID ∈ blks then blks else blks ++ [ebID]) }) hheap_upd hnodup'
      have hflt : gs.filter (fun g => (alookup ({ updateEB s ebID (fun eb => { eb with completeCollections := aset eb.completeCollections g0 ⟨g0, none⟩ }) with blockByCollection := aset (updateEB s ebID (fun eb => { eb with completeCollections := aset eb.completeCollections g0 ⟨g0, none⟩ })).blockByCollection g0 (if ebID ∈ blks then blks else blks ++ [ebID]) } :
          EngineState).blockByCollection g).isNone)
          = gs.filter (fun g => (alookup s.blockByCollection g).isNone) :=
        List.filter_congr (fun g hg => by rw [hbbc_eq g hg])
      refine ⟨?_, ?_, ?_⟩
      · rw [hred, ih1, hflt, List.filter_cons]
        have hcond : (alookup s.blockByCollection g0).isNone = false := by
          rw [hbc0]
          rfl
        rw [hcond]
        simp
      · intro g hg hnone
        rcases List.mem_cons.mp hg with rfl | hmem
        · rw [hbc0] at hnone
          cases hnone
        · rw [hred]
          refine ih2 g hmem ?_
          rw [hbbc_eq g hmem]
          exact hnone
      · intro g hg
        rcases List.mem_cons.mp hg with rfl | hmem
        · rw [hred, ccTrans_matchLoop_ne ebID gs _ ebID g hg0notin]
          exact hccset _ rfl
        · rw [hred]
          exact ih3 g hmem
    | none =>
      have hbc0 : alookup s.blockByCollection g0 = none := by
        rw [← hbc, updateEB_bbc]
      have hred : matchLoop ebID (g0 :: gs) s =
          (g0 :: (matchLoop ebID gs { updateEB s ebID (fun eb => { eb with completeCollections := aset eb.completeCollections g0 ⟨g0, none⟩ }) with blockByCollection := aset (updateEB s ebID (fun eb => { eb with completeCollections := aset eb.completeCollections g0 ⟨g0, none⟩ })).blockByCollection g0 [ebID] }).1, (matchLoop ebID gs { updateEB s ebID (fun eb => { eb with completeCollections := aset eb.completeCollections g0 ⟨g0, none⟩ }) with blockByCollection := aset (updateEB s ebID (fun eb => { eb with completeCollections := aset eb.completeCollections g0 ⟨g0, none⟩ })).blockByCollection g0 [ebID] }).2) := by
        simp only [matchLoop, hbc]
      have hbbc_eq : ∀ g ∈ gs, alookup ({ updateEB s ebID (fun eb => { eb with completeCollections := aset eb.completeCollections g0 ⟨g0, none⟩ }) with blockByCollection := aset (updateEB s ebID (fun eb => { eb with completeCollections := aset eb.completeCollections g0 ⟨g0, none⟩ })).blockByCollection g0 [ebID] } :
          EngineState).blockByCollection g = alookup s.blockByCollection g := by
        intro g hg
        have hne : g ≠ g0 := fun h => hg0notin (h ▸ hg)
        show alookup (aset _ g0 _) g = _
        rw [alookup_aset, if_neg hne, updateEB_bbc]
      obtain ⟨ih1, ih2, ih3⟩ := ih ({ updateEB s ebID (fun eb => { eb with completeCollections := aset eb.completeCollections g0 ⟨g0, none⟩ }) with blockByCollection := aset (updateEB s ebID (fun eb => { eb with completeCollections := aset eb.completeCollections g0 ⟨g0, none⟩ })).blockByCollection g0 [ebID] }) hheap_upd hnodup'
      have hflt : gs.filter (fun g => (alookup ({ updateEB s ebID (fun eb => { eb with completeCollections := aset eb.completeCollections g0 ⟨g0, none⟩ }) with blockByCollection := aset (updateEB s ebID (fun eb => { eb with completeCollections := aset eb.completeCollections g0 ⟨g0, none⟩ })).blockByCollection g0 [ebID] } :
          EngineState).blockByCollection g).isNone)
          = gs.filter (fun g => (alookup s.blockByCollection g).isNone) :=
        List.filter_congr (fun g hg => by rw [hbbc_eq g hg])
      refine ⟨?_, ?_, ?_⟩
      · rw [hred]
        show g0 :: _ = _
        rw [List.filter_cons]
        have hcond : (alookup s.blockByCollection g0).isNone = true := by
          rw [hbc0]
          rfl
        rw [hcond, if_pos rfl, ih1, hflt]
      · intro g hg hnone
        rcases List.mem_cons.mp hg with rfl | hmem
        · rw [hred]
          show alookup (matchLoop ebID gs _).2.blockByCollection g = some [ebID]
          rw [matchLoop_bbc_ne ebID gs _ g hg0notin]
          show alookup (aset _ g _) g = _
          rw [alookup_aset, if_pos rfl]
        · rw [hred]
          show alookup (matchLoop ebID gs _).2.blockByCollection g = some [ebID]
          refine ih2 g hmem ?_
          rw [hbbc_eq g hmem]
          exact hnone
      · intro g hg
        rcases List.mem_cons.mp hg with rfl | hmem
        · rw [hred]
          show ccTrans (matchLoop ebID gs _).2 ebID g = some none
          rw [ccTrans_matchLoop_ne ebID gs _ ebID g hg0notin]
          exact hccset _ rfl
        · rw [hred]
          exact ih3 g hmem


theorem executeBlockIfComplete_bbc (id : Ident) (s : EngineState) :
    (executeBlockIfComplete id s).2.blockByCollection = s.blockByCollection := by
  unfold executeBlockIfComplete
  dsimp only
  split
  · rfl
  · split
    · rfl
    · split
      · simp [updateEB_bbc]
      · rfl

theorem executeBlockIfComplete_collStore (id : Ident) (s : EngineState) :
    (executeBlockIfComplete id s).2.collStore = s.collStore := by
  unfold executeBlockIfComplete
  dsimp only
  split
  · rfl
  · split
    · rfl
    · split
      · simp [updateEB_collStore]
      · rfl

theorem executeBlockIfComplete_requested (id : Ident) (s : EngineState) :
    (executeBlockIfComplete id s).2.requested = s.requested := by
  unfold executeBlockIfComplete
  dsimp only
  split
  · rfl
  · split
    · rfl
    · split
      · simp [updateEB_requested]
      · rfl

/-- Delivering a collection whose only waiting block is `ebID` and whose
`CompleteCollection` entry is allocated but unfilled succeeds: the entry
is filled with the delivered transactions, the reverse-index entry for
the collection is erased, and nothing else changes. -/
theorem addColl_delivery_spec (ebID g : Ident) (txs : List Nat) (s : EngineState)
    (hbbc : alookup s.blockByCollection g = some [ebID])
    (hcc : ccTrans s ebID g = some none) :
    (addCollectionToMempool g txs s).1 = Res.ok () ∧
    ccTrans (addCollectionToMempool g txs s).2 ebID g = some (some txs) ∧
    (∀ x y, x ≠ g → ccTrans (addCollectionToMempool g txs s).2 y x = ccTrans s y x) ∧
    (∀ x, x ≠ g → alookup (addCollectionToMempool g txs s).2.blockByCollection x
        = alookup s.blockByCollection x) ∧
    (addCollectionToMempool g txs s).2.collStore = s.collStore ∧
    (addCollectionToMempool g txs s).2.requested = s.requested := by
  cases heb : alookup s.ebs ebID with
  | none =>
    have hcc2 : (none : Option (Option (List Nat))) = some none := by
      unfold ccTrans at hcc
      rw [heb] at hcc
      exact hcc
    cases hcc2
  | some eb =>
    have hcc2 : Option.map CompleteCollection.transactions (alookup eb.completeCollections g)
        = some none := by
      unfold ccTrans at hcc
      rw [heb] at hcc
      exact hcc
    cases hlk : alookup eb.completeCollections g with
    | none =>
      rw [hlk] at hcc2
      cases hcc2
    | some cc =>
      rw [hlk] at hcc2
      have htr : cc.transactions = none := by simpa using hcc2
      have hncomp : cc.IsCompleted = false := by
        unfold CompleteCollection.IsCompleted
        rw [htr]
        rfl
      have hloop : addCollLoop g txs [ebID] s = (Res.ok (), (executeBlockIfComplete ebID (updateEB s ebID (fun eb => { eb with completeCollections := aset eb.completeCollections g { cc with transactions := some txs } }))).2) := by
        simp only [addCollLoop, heb, hlk, hncomp, Bool.false_eq_true, if_false]
      have hmem : addCollectionToMempool g txs s = (Res.ok (), { (executeBlockIfComplete ebID (updateEB s ebID (fun eb => { eb with completeCollections := aset eb.completeCollections g { cc with transactions := some txs } }))).2 with blockByCollection := aremove ((executeBlockIfComplete ebID (updateEB s ebID (fun eb => { eb with completeCollections := aset eb.completeCollections g { cc with transactions := some txs } }))).2).blockByCollection g }) := by
        simp only [addCollectionToMempool, hbbc, hloop]
      refine ⟨by rw [hmem], ?_, ?_, ?_, ?_, ?_⟩
      · rw [hmem]
        have h1 : ccTrans ({ (executeBlockIfComplete ebID (updateEB s ebID (fun eb => { eb with completeCollections := aset eb.completeCollections g { cc with transactions := some txs } }))).2 with blockByCollection := aremove ((executeBlockIfComplete ebID (updateEB s ebID (fun eb => { eb with completeCollections := aset eb.completeCollections g { cc with transactions := some txs } }))).2).blockByCollection g } : EngineState) ebID g = ccTrans ((executeBlockIfComplete ebID (updateEB s ebID (fun eb => { eb with completeCollections := aset eb.completeCollections g { cc with transactions := some txs } }))).2 : EngineState) ebID g := rfl
        show ccTrans ({ (executeBlockIfComplete ebID (updateEB s ebID (fun eb => { eb with completeCollections := aset eb.completeCollections g { cc with transactions := some txs } }))).2 with blockByCollection := aremove ((executeBlockIfComplete ebID (updateEB s ebID (fun eb => { eb with completeCollections := aset eb.completeCollections g { cc with transactions := some txs } }))).2).blockByCollection g } : EngineState) ebID g = some (some txs)
        rw [h1, ccTrans_executeBlockIfComplete]
        exact ccTrans_updateEB_aset_self s ebID g { cc with transactions := some txs } (by rw [heb]; rfl)
      · intro x y hx
        rw [hmem]
        have h1 : ccTrans ({ (executeBlockIfComplete ebID (updateEB s ebID (fun eb => { eb with completeCollections := aset eb.completeCollections g { cc with transactions := some txs } }))).2 with blockByCollection := aremove ((executeBlockIfComplete ebID (updateEB s ebID (fun eb => { eb with completeCollections := aset eb.completeCollections g { cc with transactions := some txs } }))).2).blockByCollection g } : EngineState) y x = ccTrans ((executeBlockIfComplete ebID (updateEB s ebID (fun eb => { eb with completeCollections := aset eb.completeCollections g { cc with transactions := some txs } }))).2 : EngineState) y x := rfl
        show ccTrans ({ (executeBlockIfComplete ebID (updateEB s ebID (fun eb => { eb with completeCollections := aset eb.completeCollections g { cc with transactions := some txs } }))).2 with blockByCollection := aremove ((executeBlockIfComplete ebID (updateEB s ebID (fun eb => { eb with completeCollections := aset eb.completeCollections g { cc with transactions := some txs } }))).2).blockByCollection g } : EngineState) y x = ccTrans s y x
        rw [h1, ccTrans_executeBlockIfComplete]
        exact ccTrans_updateEB_aset_ne s ebID y x g _ hx
      · intro x hx
        rw [hmem]
        show alookup (aremove ((executeBlockIfComplete ebID (updateEB s ebID (fun eb => { eb with completeCollections := aset eb.completeCollections g { cc with transactions := some txs } }))).2 : EngineState).blockByCollection g) x = _
        rw [alookup_aremove, if_neg hx, executeBlockIfComplete_bbc, updateEB_bbc]
      · rw [hmem]
        show ((executeBlockIfComplete ebID (updateEB s ebID (fun eb => { eb with completeCollections := aset eb.completeCollections g { cc with transactions := some txs } }))).2 : EngineState).collStore = _
        rw [executeBlockIfComplete_collStore, updateEB_collStore]
      · rw [hmem]
        show ((executeBlockIfComplete ebID (updateEB s ebID (fun eb => { eb with completeCollections := aset eb.completeCollections g { cc with transactions := some txs } }))).2 : EngineState).requested = _
        rw [executeBlockIfComplete_requested, updateEB_requested]

/-- Analysis of the fetch pass over the missing guarantees: when every
guarantee waits only on `ebID` with an allocated-but-unfilled
`CompleteCollection` entry, the pass succeeds; guarantees present in
local collection storage have their transactions filled immediately,
and exactly the guarantees absent from local storage are dispatched as
fetch requests. -/
theorem fetchLoop_spec (env : Env) (ebID : Ident) :
    ∀ (l : List Ident) (s : EngineState), l.Nodup →
      (∀ g ∈ l, alookup s.blockByCollection g = some [ebID]) →
      (∀ g ∈ l, ccTrans s ebID g = some none) →
      (∀ g ∈ l, alookup s.collStore g ≠ some CollLookup.exception) →
      (∀ g ∈ l, (env.guarantors g).isSome = true) →
      (fetchAndHandleCollection env l s).1 = Res.ok () ∧
      (fetchAndHandleCollection env l s).2.requested
          = s.requested ++ l.filter (fun g => (alookup s.collStore g).isNone) ∧
      (∀ g ∈ l, ∀ txs, alookup s.collStore g = some (CollLookup.ok txs) →
        ccTrans (fetchAndHandleCollection env l s).2 ebID g = some (some txs)) ∧
      (∀ x y, x ∉ l → ccTrans (fetchAndHandleCollection env l s).2 y x = ccTrans s y x) := by
  intro l
  induction l with
  | nil =>
    intro s _ _ _ _ _
    refine ⟨rfl, by simp [fetchAndHandleCollection], ?_, ?_⟩
    · intro g hg
      cases hg
    · intro x y _
      rfl
  | cons g0 gs ih =>
    intro s hnodup hbbc hcc hexc hgua
    obtain ⟨hg0notin, hnodup2⟩ := List.nodup_cons.mp hnodup
    have hg0mem : g0 ∈ g0 :: gs := List.mem_cons_self _ _
    cases hst : alookup s.collStore g0 with
    | none =>
      cases hgl : env.guarantors g0 with
      | none =>
        have h := hgua g0 hg0mem
        rw [hgl] at h
        simp at h
      | some gl =>
        have hred : fetchAndHandleCollection env (g0 :: gs) s
            = fetchAndHandleCollection env gs { s with requested := s.requested ++ [g0] } := by
          simp only [fetchAndHandleCollection, hst, hgl]
        have hccS : ∀ x y, ccTrans { s with requested := s.requested ++ [g0] } y x
            = ccTrans s y x := fun _ _ => rfl
        obtain ⟨ih1, ih2, ih3, ih4⟩ := ih { s with requested := s.requested ++ [g0] } hnodup2
          (fun g hg => hbbc g (List.mem_cons_of_mem _ hg))
          (fun g hg => (hccS g ebID).trans (hcc g (List.mem_cons_of_mem _ hg)))
          (fun g hg => hexc g (List.mem_cons_of_mem _ hg))
          (fun g hg => hgua g (List.mem_cons_of_mem _ hg))
        refine ⟨?_, ?_, ?_, ?_⟩
        · rw [hred]
          exact ih1
        · rw [hred, ih2]
          have hcs : ({ s with requested := s.requested ++ [g0] } : EngineState).collStore
              = s.collStore := rfl
          rw [hcs]
          show (s.requested ++ [g0]) ++ _ = _
          rw [List.filter_cons]
          have hcond : (alookup s.collStore g0).isNone = true := by
            rw [hst]
            rfl
          rw [hcond, if_pos rfl, List.append_assoc]
          rfl
        · intro g hg txs htxs
          rcases List.mem_cons.mp hg with heq | hmem
          · rw [heq, hst] at htxs
            cases htxs
          · rw [hred]
            exact ih3 g hmem txs htxs
        · intro x y hx
          have hxgs : x ∉ gs := fun h => hx (List.mem_cons_of_mem _ h)
          rw [hred]
          exact (ih4 x y hxgs).trans (hccS x y)
    | some cl =>
      cases cl with
      | exception => exact absurd hst (hexc g0 hg0mem)
      | ok txs0 =>
        obtain ⟨hr, hfill, hccfr, hbbcfr, hcs, hreq⟩ :=
          addColl_delivery_spec ebID g0 txs0 s (hbbc g0 hg0mem) (hcc g0 hg0mem)
        cases hA : addCollectionToMempool g0 txs0 s with
        | mk r s1 =>
          rw [hA] at hr hfill hccfr hbbcfr hcs hreq
          simp only at hr hfill hccfr hbbcfr hcs hreq
          subst hr
          have hred : fetchAndHandleCollection env (g0 :: gs) s
              = fetchAndHandleCollection env gs s1 := by
            simp only [fetchAndHandleCollection, hst, hA]
          obtain ⟨ih1, ih2, ih3, ih4⟩ := ih s1 hnodup2
            (fun g hg => by
              rw [hbbcfr g (fun h => hg0notin (h ▸ hg))]
              exact hbbc g (List.mem_cons_of_mem _ hg))
            (fun g hg => by
              rw [hccfr g ebID (fun h => hg0notin (h ▸ hg))]
              exact hcc g (List.mem_cons_of_mem _ hg))
            (fun g hg => by
              rw [hcs]
              exact hexc g (List.mem_cons_of_mem _ hg))
            (fun g hg => hgua g (List.mem_cons_of_mem _ hg))
          refine ⟨?_, ?_, ?_, ?_⟩
          · rw [hred]
            exact ih1
          · rw [hred, ih2, hreq, hcs, List.filter_cons]
            have hcond : (alookup s.collStore g0).isNone = false := by
              rw [hst]
              rfl
            rw [hcond]
            simp
          · intro g hg txs htxs
            rcases List.mem_cons.mp hg with heq | hmem
            · rw [heq] at htxs ⊢
              rw [hst] at htxs
              cases htxs
              rw [hred, ih4 g0 ebID hg0notin]
              exact hfill
            · rw [hred]
              refine ih3 g hmem txs ?_
              rw [hcs]
              exact htxs
          · intro x y hx
            have hxgs : x ∉ gs := fun h => hx (List.mem_cons_of_mem _ h)
            have hxg0 : x ≠ g0 := fun h => hx (h ▸ List.mem_cons_self _ _)
            rw [hred]
            exact (ih4 x y hxgs).trans (hccfr x y hxg0)

/-- C7: the matcher/fetcher pipeline (`matchAndFindMissingCollections`
followed by `addOrFetch`, as wired at both call sites): exactly the
guarantees with no existing reverse-index entry are reported missing;
each missing guarantee is then checked against local collection storage;
if the collection is present its `Transactions` are filled immediately,
and only the guarantees whose collections are absent from local storage
are dispatched as fetch requests. -/
theorem match_then_fetch_checks_storage (env : Env) (ebID : Ident) (s : EngineState)
    (eb : ExecutableBlock)
    (heb : alookup s.ebs ebID = some eb)
    (hnodup : eb.block.guarantees.Nodup)
    (hexc : ∀ g ∈ eb.block.guarantees, alookup s.collStore g ≠ some CollLookup.exception)
    (hgua : ∀ g ∈ eb.block.guarantees, (env.guarantors g).isSome = true) :
    (matchAndFindMissingCollections ebID s).1
        = eb.block.guarantees.filter (fun g => (alookup s.blockByCollection g).isNone) ∧
    (addOrFetch env (matchAndFindMissingCollections ebID s).1
        (matchAndFindMissingCollections ebID s).2).1 = Res.ok () ∧
    (addOrFetch env (matchAndFindMissingCollections ebID s).1
        (matchAndFindMissingCollections ebID s).2).2.requested
        = s.requested
          ++ (matchAndFindMissingCollections ebID s).1.filter
               (fun g => (alookup s.collStore g).isNone) ∧
    (∀ g ∈ (matchAndFindMissingCollections ebID s).1, ∀ txs,
        alookup s.collStore g = some (CollLookup.ok txs) →
        ccTrans (addOrFetch env (matchAndFindMissingCollections ebID s).1
            (matchAndFindMissingCollections ebID s).2).2 ebID g = some (some txs)) := by
  have hM : matchAndFindMissingCollections ebID s = matchLoop ebID eb.block.guarantees s := by
    simp only [matchAndFindMissingCollections, heb]
  obtain ⟨hA1, hA2, hA3⟩ :=
    matchLoop_analysis ebID eb.block.guarantees s (by rw [heb]; rfl) hnodup
  have hmnd : (matchLoop ebID eb.block.guarantees s).1.Nodup := by
    rw [hA1]
    exact hnodup.filter _
  have hcs1 : (matchLoop ebID eb.block.guarantees s).2.collStore = s.collStore :=
    matchLoop_collStore ebID eb.block.guarantees s
  have hrq1 : (matchLoop ebID eb.block.guarantees s).2.requested = s.requested :=
    matchLoop_requested ebID eb.block.guarantees s
  have hsub : ∀ g ∈ (matchLoop ebID eb.block.guarantees s).1,
      g ∈ eb.block.guarantees ∧ (alookup s.blockByCollection g).isNone = true := by
    intro g hg
    rw [hA1] at hg
    exact ⟨(List.mem_filter.mp hg).1, (List.mem_filter.mp hg).2⟩
  obtain ⟨hF1, hF2, hF3, hF4⟩ := fetchLoop_spec env ebID
    (matchLoop ebID eb.block.guarantees s).1 (matchLoop ebID eb.block.guarantees s).2 hmnd
    (fun g hg => hA2 g (hsub g hg).1 (hsub g hg).2)
    (fun g hg => hA3 g (hsub g hg).1)
    (fun g hg => by rw [hcs1]; exact hexc g (hsub g hg).1)
    (fun g hg => hgua g (hsub g hg).1)
  refine ⟨by rw [hM]; exact hA1, ?_, ?_, ?_⟩
  · rw [hM]
    exact hF1
  · rw [hM]
    show (fetchAndHandleCollection env (matchLoop ebID eb.block.guarantees s).1
        (matchLoop ebID eb.block.guarantees s).2).2.requested = _
    rw [hF2, hrq1, hcs1]
  · intro g hg txs htxs
    rw [hM] at hg ⊢
    exact hF3 g hg txs (by rw [hcs1]; exact htxs)

/-- One block `100` guaranteeing collections `1` (present in local
storage) and `2` (absent), with an empty reverse index. -/
def sW7 : EngineState :=
  { queues := [QTree.node 100 []]
    ebs := [(100, ⟨⟨100, 99, 1, [1, 2]⟩, [], none, false⟩)]
    blockByCollection := []
    collStore := [(1, CollLookup.ok [10])]
    es := esW0
    requested := []
    launched := []
    attempts := [] }

/-- Witness for `match_then_fetch_checks_storage` on `sW7`. -/
theorem match_then_fetch_checks_storage_witness :
    (alookup sW7.ebs 100 = some ⟨⟨100, 99, 1, [1, 2]⟩, [], none, false⟩ ∧
     ([1, 2] : List Ident).Nodup ∧
     (∀ g ∈ ([1, 2] : List Ident), alookup sW7.collStore g ≠ some CollLookup.exception) ∧
     (∀ g ∈ ([1, 2] : List Ident), (envW.guarantors g).isSome = true)) ∧
    ((matchAndFindMissingCollections 100 sW7).1
        = ([1, 2] : List Ident).filter (fun g => (alookup sW7.blockByCollection g).isNone) ∧
     (addOrFetch envW (matchAndFindMissingCollections 100 sW7).1
        (matchAndFindMissingCollections 100 sW7).2).1 = Res.ok () ∧
     (addOrFetch envW (matchAndFindMissingCollections 100 sW7).1
        (matchAndFindMissingCollections 100 sW7).2).2.requested
        = sW7.requested
          ++ (matchAndFindMissingCollections 100 sW7).1.filter
               (fun g => (alookup sW7.collStore g).isNone) ∧
     (∀ g ∈ (matchAndFindMissingCollections 100 sW7).1, ∀ txs,
        alookup sW7.collStore g = some (CollLookup.ok txs) →
        ccTrans (addOrFetch envW (matchAndFindMissingCollections 100 sW7).1
            (matchAndFindMissingCollections 100 sW7).2).2 100 g = some (some txs))) :=
  ⟨⟨by decide, by decide, by decide, by decide⟩,
   match_then_fetch_checks_storage envW 100 sW7 ⟨⟨100, 99, 1, [1, 2]⟩, [], none, false⟩
     (by decide) (by decide) (by decide) (by decide)⟩
